import Mathlib

/-!
Shopping-cart management system (`SCMS.cpp`): embedding and verified properties.

The C++ program keeps a product catalog in an AVL tree (`Node`, `insert`,
`search`, `deleteNode`), a shopping cart in a doubly linked list of heap
nodes (`ShoppingCart`), an undo log in a bounded array stack (`Stack`) and
the placed orders in a bounded array queue (`Queue`).

Conventions of the embedding.

* `int` values are `Int`.  The modelled functions only compare and copy
  identifiers and quantities; the arithmetic on cached tree heights and on
  the stack and queue indices stays far from the range limits of `int`.  The
  one subtraction on user input, `quantity -= qty` of the menu, is done
  modulo `2^32` (`wrapInt`).
* `double` prices are only stored and copied by the modelled functions (and
  the literal `0` is written by `undo`); a price is kept as an exact number
  of hundredths, so `999.99` is `99999`.
* A pointer is `Option`: `none` is `nullptr`.  Tree nodes are owned by their
  parent, so a subtree pointer is embedded as the subtree value.  Cart nodes
  are linked in both directions, so they live in an explicit free store
  addressed by natural numbers.
* Dereferencing a null or dangling pointer, and a loop that does not
  terminate, make an operation return `none`.  The cart, stack and queue
  operations return on every state the program can reach; `insert` on the
  catalog tree does not: the stale height that `leftRotate` leaves in the
  node it returns can steer a later call into rotating a node that lacks the
  child the rotation reads.
-/

namespace SCMS

/-! ## Data model -/

/-- A price in hundredths (the program's `double`, which is never computed with). -/
abbrev Price := Int

/-- The `struct Product` of the catalog. -/
structure Product where
  id : Int
  name : String
  price : Price
  quantity : Int
deriving DecidableEq, Repr

/-- The `struct Node` of the AVL tree; `nil` is the null pointer and `height`
is the cached height field. -/
inductive Node where
  | nil : Node
  | node (product : Product) (left : Node) (right : Node) (height : Int) : Node
deriving DecidableEq, Repr

/-! ## AVL tree operations -/

/-- The helper `int max(int a, int b)`. -/
def max (a b : Int) : Int := if a > b then a else b

/-- The helper `int height(Node*)`: reads the cached field, `0` for null. -/
def height : Node → Int
  | .nil => 0
  | .node _ _ _ h => h

/-- The helper `int getBalance(Node*)`. -/
def getBalance : Node → Int
  | .nil => 0
  | .node _ l r _ => height l - height r

/-- The function `rightRotate(y)`: `x = y->left` is dereferenced, so a null `y` or a
null `y->left` gives `none`. -/
def rightRotate : Node → Option Node
  | .node yp (.node xp xl t2 _) yr _ =>
    let y := Node.node yp t2 yr (max (height t2) (height yr) + 1)
    some (.node xp xl y (max (height xl) (height y) + 1))
  | _ => none

/-- The function `leftRotate(x)`: `y = x->right` is dereferenced.  The two height
assignments run in the order of the source: `y->height` first, while
`y->left`, which is `x`, still carries the height `xh` it had before the
rotation, and `x->height` after it. -/
def leftRotate : Node → Option Node
  | .node xp xl (.node yp t2 yr _) xh =>
    let yh := max xh (height yr) + 1
    let x := Node.node xp xl t2 (max (height xl) (height t2) + 1)
    some (.node yp x yr yh)
  | _ => none

/-- The function `minValueNode(node)`: follows `left` links; `node` itself is
dereferenced, so null gives `none`. -/
def minValueNode : Node → Option Node
  | .nil => none
  | .node p l r h =>
    match l with
    | .nil => some (.node p l r h)
    | .node _ _ _ _ => minValueNode l

/-- Lines 191-212 of `insert`, run on the node with product `q` whose children
are now `l` and `r`: the height update and the four rotation tests, in the
order of the source.  The tests guarded by `balance > 1` read
`node->left->product.id`, those guarded by `balance < -1` read
`node->right->product.id`; the guards exclude each other, so the cascade of
four `if`s is written as two groups. -/
def insertRebalance (q : Product) (l r : Node) (p : Product) : Option Node :=
  let h := 1 + max (height l) (height r)
  let balance := getBalance (.node q l r h)
  if balance > 1 then
    match l with
    | .nil => none
    | .node lp _ _ _ =>
      if p.id < lp.id then rightRotate (.node q l r h)
      else if p.id > lp.id then
        match leftRotate l with
        | none => none
        | some l2 => rightRotate (.node q l2 r h)
      else some (.node q l r h)
  else if balance < -1 then
    match r with
    | .nil => none
    | .node rp _ _ _ =>
      if p.id > rp.id then leftRotate (.node q l r h)
      else if p.id < rp.id then
        match rightRotate r with
        | none => none
        | some r2 => leftRotate (.node q l r2 h)
      else some (.node q l r h)
  else some (.node q l r h)

/-- The function `insert(node, p)`. -/
def insert : Node → Product → Option Node
  | .nil, p => some (.node p .nil .nil 1)
  | .node q l r h, p =>
    if p.id < q.id then
      match insert l p with
      | none => none
      | some l2 => insertRebalance q l2 r p
    else if p.id > q.id then
      match insert r p with
      | none => none
      | some r2 => insertRebalance q l r2 p
    else some (.node q l r h)

/-- The function `search(root, id)`; the result is the subtree rooted at the node found,
`nil` when absent. -/
def search : Node → Int → Node
  | .nil, _ => .nil
  | .node q l r h, id =>
    if q.id = id then .node q l r h
    else if id < q.id then search l id
    else search r id

/-- Lines 246-267 of `deleteNode`, run on the node with product `q` whose
children are now `l` and `r`. -/
def deleteRebalance (q : Product) (l r : Node) : Option Node :=
  let h := max (height l) (height r) + 1
  let balance := getBalance (.node q l r h)
  if balance > 1 ∧ getBalance l ≥ 0 then rightRotate (.node q l r h)
  else if balance < -1 ∧ getBalance r ≤ 0 then leftRotate (.node q l r h)
  else if balance > 1 ∧ getBalance l < 0 then
    match leftRotate l with
    | none => none
    | some l2 => rightRotate (.node q l2 r h)
  else if balance < -1 ∧ getBalance r > 0 then
    match rightRotate r with
    | none => none
    | some r2 => leftRotate (.node q l r2 h)
  else some (.node q l r h)

/-- The function `deleteNode(root, id)`. -/
def deleteNode : Node → Int → Option Node
  | .nil, _ => some .nil
  | .node q l r _, id =>
    if id < q.id then
      match deleteNode l id with
      | none => none
      | some l2 => deleteRebalance q l2 r
    else if id > q.id then
      match deleteNode r id with
      | none => none
      | some r2 => deleteRebalance q l r2
    else if l = .nil ∨ r = .nil then
      some (if l ≠ .nil then l else r)
    else
      match minValueNode r with
      | none => none
      | some .nil => none
      | some (.node tp _ _ _) =>
        match deleteNode r tp.id with
        | none => none
        | some r2 => deleteRebalance tp l r2

/-- The traversal of `displayProducts(root)`: left subtree, node, right subtree. -/
def inorder : Node → List Product
  | .nil => []
  | .node q l r _ => inorder l ++ q :: inorder r

/-- One call made on the catalog. -/
inductive TreeOp where
  | ins (p : Product) : TreeOp
  | del (id : Int) : TreeOp
deriving DecidableEq, Repr

/-- Runs one call, `root = insert(root, p)` or `root = deleteNode(root, id)`. -/
def applyOp (t : Node) : TreeOp → Option Node
  | .ins p => insert t p
  | .del id => deleteNode t id

/-- Runs a sequence of calls from the tree `t`, oldest call first. -/
def applyOps : Node → List TreeOp → Option Node
  | t, [] => some t
  | t, op :: ops =>
    match applyOp t op with
    | none => none
    | some t2 => applyOps t2 ops

/-- The ten products `p1` .. `p10` that `main` inserts in this order. -/
def seedProducts : List Product :=
  [⟨1, "Laptop", 99999, 10⟩, ⟨2, "Smartphone", 69999, 20⟩, ⟨3, "Headphones", 19999, 30⟩,
   ⟨4, "Keyboard", 4999, 50⟩, ⟨5, "Mouse", 2999, 100⟩, ⟨6, "Shampoo", 1099, 200⟩,
   ⟨7, "Soap", 599, 500⟩, ⟨8, "Tooth Paste", 999, 150⟩, ⟨9, "Tooth Brush", 299, 900⟩,
   ⟨10, "Charger", 2399, 250⟩]

/-! ## Tree invariants -/

/-- The true height of a subtree: `0` when empty, else one more than the
larger of the children's true heights. -/
def trueHeight : Node → Nat
  | .nil => 0
  | .node _ l r _ => 1 + Max.max (trueHeight l) (trueHeight r)

/-- Every cached `height` field equals the true height of its subtree. -/
def HeightsExact : Node → Prop
  | .nil => True
  | .node _ l r h =>
    h = ((1 + Max.max (trueHeight l) (trueHeight r) : Nat) : Int) ∧ HeightsExact l ∧ HeightsExact r

/-- At every node the true heights of the two subtrees differ by at most one. -/
def Balanced : Node → Prop
  | .nil => True
  | .node _ l r _ =>
    trueHeight l ≤ trueHeight r + 1 ∧ trueHeight r ≤ trueHeight l + 1 ∧ Balanced l ∧ Balanced r

/-- The in-order traversal lists strictly ascending ids. -/
def Ordered (t : Node) : Prop :=
  (inorder t).Pairwise (fun a b => a.id < b.id)

/-- The ids of the products listed by the in-order traversal. -/
def ids (t : Node) : List Int := (inorder t).map (fun x => x.id)

/-- All the nodes of a tree, each given as the subtree it roots. -/
def nodes : Node → List Node
  | .nil => []
  | .node q l r h => nodes l ++ .node q l r h :: nodes r

/-- The three properties of an AVL tree together. -/
def AVL (t : Node) : Prop := HeightsExact t ∧ Balanced t ∧ Ordered t

/-- The calls `root = insert(root, p1)` .. `root = insert(root, p10)` of `main`. -/
def seedOps : List TreeOp := seedProducts.map TreeOp.ins

/-- A leaf node, as `new Node(p)` makes it. -/
def leaf (p : Product) : Node := .node p .nil .nil 1

/-- The catalog tree that `main` holds after its ten inserts: the value of
`applyOps .nil seedOps`. -/
def seedTree : Node :=
  .node ⟨6, "Shampoo", 1099, 200⟩
    (.node ⟨4, "Keyboard", 4999, 50⟩
      (.node ⟨2, "Smartphone", 69999, 20⟩
        (leaf ⟨1, "Laptop", 99999, 10⟩) (leaf ⟨3, "Headphones", 19999, 30⟩) 2)
      (leaf ⟨5, "Mouse", 2999, 100⟩)
      3)
    (.node ⟨8, "Tooth Paste", 999, 150⟩
      (leaf ⟨7, "Soap", 599, 500⟩)
      (.node ⟨9, "Tooth Brush", 299, 900⟩ .nil (leaf ⟨10, "Charger", 2399, 250⟩) 2)
      3)
    4

/-- The seed product of `main` with the id `i`. -/
def seedProduct (i : Int) : Product :=
  (seedProducts.find? (fun p => p.id == i)).getD ⟨i, "", 0, 0⟩

/-- The calls `root = insert(root, p)` for the seed products with the ids
`is`, in this order. -/
def insertsOf (is : List Int) : List TreeOp := is.map (fun i => TreeOp.ins (seedProduct i))

/-- The tree after the inserts of ids 1, 2, 3: one left rotation at the root. -/
def staleTree : Node :=
  .node (seedProduct 2) (leaf (seedProduct 1)) (leaf (seedProduct 3)) 4

/-- The tree after the inserts of ids 1, 3, 4, 2, 5, 6. -/
def unbalancedTree : Node :=
  .node (seedProduct 5)
    (.node (seedProduct 3)
      (.node (seedProduct 1) .nil (leaf (seedProduct 2)) 2) (leaf (seedProduct 4)) 3)
    (leaf (seedProduct 6)) 6

/-- The tree after the inserts of ids 1, 4, 5, 2, 8, 3, 9, 6. -/
def faultTree : Node :=
  .node (seedProduct 6)
    (.node (seedProduct 5)
      (.node (seedProduct 3)
        (.node (seedProduct 2) (leaf (seedProduct 1)) .nil 2) (leaf (seedProduct 4)) 3)
      .nil 4)
    (.node (seedProduct 8) .nil (leaf (seedProduct 9)) 2) 5

/-- The tree after the inserts of ids 1, 2, 3, 5, 4. -/
def skewTree : Node :=
  .node (seedProduct 2) (leaf (seedProduct 1))
    (.node (seedProduct 4) (leaf (seedProduct 3)) (leaf (seedProduct 5)) 4) 5

/-- The tree that `insert` returns for `skewTree` and a product with id 1. -/
def reshapedTree : Node :=
  .node (seedProduct 3)
    (.node (seedProduct 2) (leaf (seedProduct 1)) .nil 2)
    (.node (seedProduct 4) .nil (leaf (seedProduct 5)) 2) 6

/-- The tree after the inserts of ids 1, 3, 4, 6, 5. -/
def leanTree : Node :=
  .node (seedProduct 3) (leaf (seedProduct 1))
    (.node (seedProduct 5) (leaf (seedProduct 4)) (leaf (seedProduct 6)) 4) 5

/-- The tree that `deleteNode` returns for `leanTree` and the id 2. -/
def rotatedTree : Node :=
  .node (seedProduct 5)
    (.node (seedProduct 3) (leaf (seedProduct 1)) (leaf (seedProduct 4)) 2)
    (leaf (seedProduct 6)) 6

/-- A run with rotations, a delete that finds nothing, a delete of a node with
two children and an insert. -/
def mixedOps : List TreeOp :=
  insertsOf [1, 3, 4, 6, 5] ++ [.del 2, .del 3, .ins (seedProduct 2)]

/-- The tree after `mixedOps`. -/
def mixedTree : Node :=
  .node (seedProduct 5)
    (.node (seedProduct 2) (leaf (seedProduct 1)) (leaf (seedProduct 4)) 2)
    (leaf (seedProduct 6)) 3

/-- The real balance factor of a node: the true height of its left subtree
minus the true height of its right subtree. -/
def trueBalance : Node → Int
  | .nil => 0
  | .node _ l r _ => (trueHeight l : Int) - (trueHeight r : Int)

/-! ## Undo stack -/

/-- The record `Stack::Action`. -/
structure Action where
  actionType : String
  productId : Int
  productName : String
  quantity : Int
deriving DecidableEq, Repr, Inhabited

/-- The `class Stack`: the array `actions[100]` and the index `top`.  Slots
above `top` keep whatever was last written there. -/
structure Stack where
  actions : List Action
  top : Int
deriving DecidableEq, Repr

/-- The constructor `Stack()`: `top = -1`; the hundred slots start with empty
strings and with integers that are never read before `push` writes them. -/
def Stack.new : Stack := ⟨List.replicate 100 ⟨"", 0, "", 0⟩, -1⟩

/-- The method `Stack::push`: `actions[++top] = ...` when `top < 99`, else only the
message "Stack is full!". -/
def Stack.push (s : Stack) (actionType : String) (productId : Int) (productName : String)
    (quantity : Int) : Stack :=
  if s.top < 99 then
    ⟨s.actions.set (s.top + 1).toNat ⟨actionType, productId, productName, quantity⟩, s.top + 1⟩
  else s

/-- The method `Stack::pop`: the sentinel when `top == -1`, else `actions[top--]`.  The
result pairs the returned record with the stack afterwards. -/
def Stack.pop (s : Stack) : Action × Stack :=
  if s.top = -1 then (⟨"", -1, "", -1⟩, s)
  else (s.actions.getD s.top.toNat default, ⟨s.actions, s.top - 1⟩)

/-- The method `Stack::isEmpty`. -/
def Stack.isEmpty (s : Stack) : Bool := s.top == -1

/-- The records the stack holds, oldest first: slots `0 .. top`. -/
def Stack.records (s : Stack) : List Action := s.actions.take (s.top + 1).toNat

/-- The class invariant of `Stack`: a hundred slots and `-1 ≤ top ≤ 99`.  The
constructor establishes it and `push` and `pop` keep it, so every index used
is inside the array. -/
def Stack.OK (s : Stack) : Prop := s.actions.length = 100 ∧ -1 ≤ s.top ∧ s.top ≤ 99

/-! ## Shopping cart -/

/-- The `class CartNode`; `next` and `prev` are addresses in the free store. -/
structure CartNode where
  productId : Int
  productName : String
  price : Price
  quantity : Int
  next : Option Nat
  prev : Option Nat
deriving DecidableEq, Repr

/-- One line as `displayCart` prints it: id, name, price, quantity. -/
structure CartLine where
  productId : Int
  productName : String
  price : Price
  quantity : Int
deriving DecidableEq, Repr

/-- The line that `displayCart` prints for a node. -/
def CartNode.line (n : CartNode) : CartLine := ⟨n.productId, n.productName, n.price, n.quantity⟩

/-- Whether a line carries the product id `id`. -/
def CartLine.hasId (id : Int) (l : CartLine) : Bool := decide (l.productId = id)

/-- The free store of cart nodes: address `a` holds `m[a]`, which is `none`
once the node was deleted. -/
abbrev Mem := List (Option CartNode)

/-- Dereferences address `a`; `none` for an address never allocated or already deleted. -/
def Mem.read (m : Mem) (a : Nat) : Option CartNode := m.getD a none

/-- Overwrites the node at address `a`. -/
def Mem.write (m : Mem) (a : Nat) (n : CartNode) : Mem := m.set a (some n)

/-- The statement `delete` on address `a`. -/
def Mem.free (m : Mem) (a : Nat) : Mem := m.set a none

/-- The expression `new CartNode(...)`: the node is placed at the fresh address `m.length`. -/
def Mem.alloc (m : Mem) (n : CartNode) : Mem := m ++ [some n]

/-- The assignment `a->next = v`; `a` is dereferenced. -/
def Mem.setNext (m : Mem) (a : Nat) (v : Option Nat) : Option Mem :=
  match m.read a with
  | none => none
  | some n => some (m.write a { n with next := v })

/-- The assignment `a->prev = v`; `a` is dereferenced. -/
def Mem.setPrev (m : Mem) (a : Nat) (v : Option Nat) : Option Mem :=
  match m.read a with
  | none => none
  | some n => some (m.write a { n with prev := v })

/-- The loop `while (temp->next) temp = temp->next;` of `addItem`, started at
`temp = a`; the result is the final `temp`.  The first argument bounds the
number of nodes visited. -/
def lastNode (m : Mem) : Nat → Nat → Option Nat
  | 0, _ => none
  | fuel + 1, a =>
    match m.read a with
    | none => none
    | some n =>
      match n.next with
      | none => some a
      | some b => lastNode m fuel b

/-- The loop `while (temp && temp->productId != id) temp = temp->next;` of
`modifyItem` and `removeItem`; the result is the final `temp`. -/
def findNode (m : Mem) (id : Int) : Nat → Option Nat → Option (Option Nat)
  | _, none => some none
  | 0, some _ => none
  | fuel + 1, some a =>
    match m.read a with
    | none => none
    | some n => if n.productId ≠ id then findNode m id fuel n.next else some (some a)

/-- The loop of `displayCart`: the lines printed from `temp` on. -/
def linesFrom (m : Mem) : Nat → Option Nat → Option (List CartLine)
  | _, none => some []
  | 0, some _ => none
  | fuel + 1, some a =>
    match m.read a with
    | none => none
    | some n =>
      match linesFrom m fuel n.next with
      | none => none
      | some ls => some (n.line :: ls)

/-- The addresses of the nodes that the loop of `displayCart` visits. -/
def addrsFrom (m : Mem) : Nat → Option Nat → Option (List Nat)
  | _, none => some []
  | 0, some _ => none
  | fuel + 1, some a =>
    match m.read a with
    | none => none
    | some n =>
      match addrsFrom m fuel n.next with
      | none => none
      | some as => some (a :: as)

/-- The `class ShoppingCart` together with the free store its nodes live in.
A loop over the list visits each live node at most once unless the list is
cyclic, so the loops run with `mem.length` as bound and `none` stands for a
loop that never ends. -/
structure ShoppingCart where
  mem : Mem
  head : Option Nat
  undoStack : Stack
deriving DecidableEq, Repr

/-- The constructor `ShoppingCart()`: `head = nullptr`, an empty undo stack. -/
def ShoppingCart.new : ShoppingCart := ⟨[], none, Stack.new⟩

/-- The method `ShoppingCart::addItem`. -/
def ShoppingCart.addItem (c : ShoppingCart) (id : Int) (name : String) (price : Price)
    (qty : Int) : Option ShoppingCart :=
  let newNode := c.mem.length
  let m1 := c.mem.alloc ⟨id, name, price, qty, none, none⟩
  let linked : Option Mem :=
    match c.head with
    | none => some m1
    | some h =>
      match lastNode m1 m1.length h with
      | none => none
      | some temp =>
        match m1.setNext temp (some newNode) with
        | none => none
        | some m2 => m2.setPrev newNode (some temp)
  match linked with
  | none => none
  | some m =>
    some ⟨m, if c.head = none then some newNode else c.head, c.undoStack.push "add" id name qty⟩

/-- The method `ShoppingCart::modifyItem`. -/
def ShoppingCart.modifyItem (c : ShoppingCart) (id : Int) (newQty : Int) : Option ShoppingCart :=
  match findNode c.mem id c.mem.length c.head with
  | none => none
  | some none => some c
  | some (some temp) =>
    match c.mem.read temp with
    | none => none
    | some tn => some ⟨c.mem.write temp { tn with quantity := newQty }, c.head, c.undoStack⟩

/-- The method `ShoppingCart::removeItem`.  The node `temp` is read once: the two
pointer updates write to its neighbours and leave its own fields as read. -/
def ShoppingCart.removeItem (c : ShoppingCart) (id : Int) : Option ShoppingCart :=
  match c.head with
  | none => some c
  | some _ =>
    match findNode c.mem id c.mem.length c.head with
    | none => none
    | some none => some c
    | some (some temp) =>
      match c.mem.read temp with
      | none => none
      | some tn =>
        let st := c.undoStack.push "remove" tn.productId tn.productName tn.quantity
        let m1 : Option Mem :=
          match tn.prev with
          | some pa => c.mem.setNext pa tn.next
          | none => some c.mem
        let head1 := if tn.prev = none then tn.next else c.head
        match m1 with
        | none => none
        | some m1 =>
          let m2 : Option Mem :=
            match tn.next with
            | some na => m1.setPrev na tn.prev
            | none => some m1
          match m2 with
          | none => none
          | some m2 => some ⟨m2.free temp, head1, st⟩

/-- Whether the scan of `removeItem(id)` ends on a node, that is, whether the
call finds a matching line and goes on to unlink it. -/
def ShoppingCart.removeItemFinds (c : ShoppingCart) (id : Int) : Bool :=
  match c.head with
  | none => false
  | some _ =>
    match findNode c.mem id c.mem.length c.head with
    | some (some _) => true
    | _ => false

/-- The lines that `ShoppingCart::displayCart` prints, first line first. -/
def ShoppingCart.displayCart (c : ShoppingCart) : Option (List CartLine) :=
  linesFrom c.mem c.mem.length c.head

/-- The addresses of the cart's nodes, in list order from `head`. -/
def ShoppingCart.addrs (c : ShoppingCart) : Option (List Nat) :=
  addrsFrom c.mem c.mem.length c.head

/-- The method `ShoppingCart::undo`. -/
def ShoppingCart.undo (c : ShoppingCart) : Option ShoppingCart :=
  if c.undoStack.isEmpty then some c
  else
    let lastAction := c.undoStack.pop.1
    let c1 : ShoppingCart := ⟨c.mem, c.head, c.undoStack.pop.2⟩
    if lastAction.actionType = "add" then
      c1.removeItem lastAction.productId
    else if lastAction.actionType = "remove" then
      c1.addItem lastAction.productId lastAction.productName 0 lastAction.quantity
    else some c1

/-- One call made on the cart. -/
inductive CartOp where
  | addItem (id : Int) (name : String) (price : Price) (qty : Int) : CartOp
  | modifyItem (id : Int) (newQty : Int) : CartOp
  | removeItem (id : Int) : CartOp
  | undo : CartOp
deriving DecidableEq, Repr

/-- Whether the call is an `addItem` or a `removeItem`. -/
def CartOp.isAddOrRemove : CartOp → Bool
  | .addItem _ _ _ _ => true
  | .removeItem _ => true
  | _ => false

/-- Runs one call on the cart. -/
def ShoppingCart.step (c : ShoppingCart) : CartOp → Option ShoppingCart
  | .addItem id name price qty => c.addItem id name price qty
  | .modifyItem id newQty => c.modifyItem id newQty
  | .removeItem id => c.removeItem id
  | .undo => c.undo

/-- Runs a sequence of calls on the cart, oldest call first. -/
def runCart : ShoppingCart → List CartOp → Option ShoppingCart
  | c, [] => some c
  | c, op :: ops =>
    match c.step op with
    | none => none
    | some c2 => runCart c2 ops

/-- The number of `addItem` calls in a sequence. -/
def addCount : List CartOp → Nat
  | [] => 0
  | .addItem _ _ _ _ :: ops => addCount ops + 1
  | _ :: ops => addCount ops

/-- The number of `removeItem` calls in a sequence, run from cart `c`, that
find a matching line. -/
def removedCount : ShoppingCart → List CartOp → Nat
  | _, [] => 0
  | c, op :: ops =>
    (match op with
      | .removeItem id => if c.removeItemFinds id then 1 else 0
      | _ => 0) +
    (match c.step op with
      | none => 0
      | some c2 => removedCount c2 ops)

/-! ## Cart invariants -/

/-- The nodes at the addresses of `ps`, in this order, form a list segment: the
pointer `cur` leads to the first one, whose `prev` is `prv`; each `next` leads
to the following node, whose `prev` leads back; the last `next` is `nxt`; and
each node shows the line paired with its address. -/
def Seg (m : Mem) : Option Nat → Option Nat → List (Nat × CartLine) → Option Nat → Prop
  | _, cur, [], nxt => cur = nxt
  | prv, cur, (a, l) :: rest, nxt =>
    cur = some a ∧
      ∃ n, m.read a = some n ∧ n.line = l ∧ n.prev = prv ∧ Seg m (some a) n.next rest nxt

/-- The pointer to the last node of a segment, `prv` when the segment is empty. -/
def lastPtr (prv : Option Nat) : List (Nat × CartLine) → Option Nat
  | [] => prv
  | (a, _) :: rest => lastPtr (some a) rest

/-- The cart's list is made of the nodes `ps`, each at an address of its own,
from `head` to a null `next`. -/
def ShoppingCart.Holds (c : ShoppingCart) (ps : List (Nat × CartLine)) : Prop :=
  (ps.map Prod.fst).Nodup ∧ Seg c.mem none c.head ps none

/-- The representation invariant of a cart: the stack invariant, and `head`
leads to a well-linked doubly linked list. -/
def ShoppingCart.WellFormed (c : ShoppingCart) : Prop :=
  c.undoStack.OK ∧ ∃ ps, c.Holds ps

/-- The cart after `addItem(1, "Laptop", 999.99, 2)` on a new cart. -/
def laptopCart : ShoppingCart :=
  ⟨[some ⟨1, "Laptop", 99999, 2, none, none⟩], some 0, Stack.new.push "add" 1 "Laptop" 2⟩

/-- The first line with product id `id`, if any, gets the quantity `q`; all
other lines stay as they are. -/
def setFirstQty (id : Int) (q : Int) : List CartLine → List CartLine
  | [] => []
  | l :: ls =>
    if l.productId = id then ⟨l.productId, l.productName, l.price, q⟩ :: ls
    else l :: setFirstQty id q ls

/-- Whether the call attempts a `push` on a full undo stack, that is, whether
`Stack::push` takes its "Stack is full!" branch during the call.  `addItem`
always pushes, `removeItem` pushes when its scan finds a node, `modifyItem`
never pushes, and `undo` pops a record and then runs `removeItem` or
`addItem`. -/
def ShoppingCart.pushesOnFull (c : ShoppingCart) : CartOp → Bool
  | .addItem _ _ _ _ => decide (¬ c.undoStack.top < 99)
  | .modifyItem _ _ => false
  | .removeItem id => c.removeItemFinds id && decide (¬ c.undoStack.top < 99)
  | .undo =>
    if c.undoStack.isEmpty then false
    else
      let lastAction := c.undoStack.pop.1
      let c1 : ShoppingCart := ⟨c.mem, c.head, c.undoStack.pop.2⟩
      if lastAction.actionType = "add" then
        c1.removeItemFinds lastAction.productId && decide (¬ c1.undoStack.top < 99)
      else if lastAction.actionType = "remove" then decide (¬ c1.undoStack.top < 99)
      else false

/-- No call of the sequence, run from cart `c`, attempts a `push` on a full
undo stack. -/
def noPushOnFull : ShoppingCart → List CartOp → Bool
  | _, [] => true
  | c, op :: ops =>
    !c.pushesOnFull op &&
      (match c.step op with
        | none => true
        | some c2 => noPushOnFull c2 ops)

/-- The log invariant of a session without overflow: every record is an "add"
or a "remove", and when the top record is an "add" the cart holds a line with
its product id. -/
def ShoppingCart.LogSound (c : ShoppingCart) : Prop :=
  (∀ r ∈ c.undoStack.records, r.actionType = "add" ∨ r.actionType = "remove") ∧
    ∀ r, c.undoStack.records.getLast? = some r → r.actionType = "add" →
      ∃ ls l, c.displayCart = some ls ∧ l ∈ ls ∧ l.productId = r.productId

/-- The cart after fifty rounds of `addItem(1, "Laptop", 999.99, 1)` and
`removeItem(1)` on a new cart: no line, a hundred log records. -/
def fullLogCart : ShoppingCart :=
  ⟨List.replicate 50 none, none,
    ⟨(List.replicate 50 [⟨"add", 1, "Laptop", 1⟩, ⟨"remove", 1, "Laptop", 1⟩]).flatten, 99⟩⟩

/-- The fifty rounds of calls that lead to `fullLogCart`. -/
def fullLogOps : List CartOp :=
  (List.replicate 50 [CartOp.addItem 1 "Laptop" 99999 1, CartOp.removeItem 1]).flatten

/-! ## Order queue -/

/-- The `class Queue`: the array `orderIds` of `capacity` slots and the indices
`front` and `back`. -/
structure Queue where
  orderIds : List Int
  front : Int
  back : Int
  capacity : Int
deriving DecidableEq, Repr

/-- The constructor `Queue()`: `front = back = -1`, `capacity = 100`; the slots of
`new int[capacity]` start with integers that are never read before `enqueue`
writes them. -/
def Queue.new : Queue := ⟨List.replicate 100 0, -1, -1, 100⟩

/-- The method `Queue::enqueue`: rejected with "Queue Overflow!" when
`back == capacity - 1`. -/
def Queue.enqueue (q : Queue) (orderId : Int) : Queue :=
  if q.back = q.capacity - 1 then q
  else
    ⟨q.orderIds.set (q.back + 1).toNat orderId, if q.front = -1 then q.front + 1 else q.front,
      q.back + 1, q.capacity⟩

/-- The method `Queue::dequeue`. -/
def Queue.dequeue (q : Queue) : Queue :=
  if q.front = -1 ∨ q.front > q.back then q
  else ⟨q.orderIds, q.front + 1, q.back, q.capacity⟩

/-- The method `Queue::peek`. -/
def Queue.peek (q : Queue) : Int :=
  if q.front = -1 ∨ q.front > q.back then -1
  else q.orderIds.getD q.front.toNat 0

/-- The method `Queue::isEmpty`. -/
def Queue.isEmpty (q : Queue) : Bool := decide (q.front = -1 ∨ q.front > q.back)

/-- Whether `enqueue` is accepted, that is, does not take its overflow branch. -/
def Queue.accepts (q : Queue) : Bool := decide (¬ q.back = q.capacity - 1)

/-- The entries the queue holds, oldest first: slots `front .. back`. -/
def Queue.entries (q : Queue) : List Int :=
  (q.orderIds.take (q.back + 1).toNat).drop q.front.toNat

/-- The class invariant of `Queue`: a hundred slots, `-1 ≤ back ≤ 99`, and
`front` is `-1` on a queue never used and between `0` and `back + 1` afterwards. -/
def Queue.OK (q : Queue) : Prop :=
  q.capacity = 100 ∧ q.orderIds.length = 100 ∧ q.back ≤ 99 ∧
    ((q.front = -1 ∧ q.back = -1) ∨ (0 ≤ q.front ∧ q.front ≤ q.back + 1))

/-- One call made on the order queue. -/
inductive QueueOp where
  | enqueue (orderId : Int) : QueueOp
  | dequeue : QueueOp
deriving DecidableEq, Repr

/-- Runs one call on the queue. -/
def Queue.step (q : Queue) : QueueOp → Queue
  | .enqueue x => q.enqueue x
  | .dequeue => q.dequeue

/-- Runs a sequence of calls on the queue, oldest call first. -/
def runQueue : Queue → List QueueOp → Queue
  | q, [] => q
  | q, op :: ops => runQueue (q.step op) ops

/-- The number of `enqueue` calls in a sequence. -/
def enqueueCount : List QueueOp → Nat
  | [] => 0
  | .enqueue _ :: ops => enqueueCount ops + 1
  | .dequeue :: ops => enqueueCount ops

/-- The number of `enqueue` calls in a sequence, run from queue `q`, that are accepted. -/
def acceptedCount : Queue → List QueueOp → Nat
  | _, [] => 0
  | q, op :: ops =>
    (match op with
      | .enqueue _ => if q.accepts then 1 else 0
      | .dequeue => 0) + acceptedCount (q.step op) ops

/-- First in, first out, as a list of waiting identifiers: `enqueue` puts the
identifier last, `dequeue` drops the first one (nothing on an empty list). -/
def fifo : List Int → List QueueOp → List Int
  | l, [] => l
  | l, .enqueue x :: ops => fifo (l ++ [x]) ops
  | l, .dequeue :: ops => fifo (l.drop 1) ops

/-! ## Menu: adding to the cart from the catalog -/

/-- Whether a value fits the 32-bit `int` of the program. -/
def inIntRange (x : Int) : Bool := decide (-2147483648 ≤ x ∧ x ≤ 2147483647)

/-- The value a 32-bit `int` holds for the arithmetic result `x`: `x` itself
when it fits, else `x` reduced modulo `2^32` into the range of `int`, which is
what the compiled program computes on signed overflow. -/
def wrapInt (x : Int) : Int := (x + 2147483648) % 4294967296 - 2147483648

/-- The assignment to `productNode->product.quantity` for the node that
`search(root, id)` finds: the tree with that one field overwritten by `v`. -/
def setQuantity : Node → Int → Int → Node
  | .nil, _, _ => .nil
  | .node q l r h, id, v =>
    if q.id = id then .node ⟨q.id, q.name, q.price, v⟩ l r h
    else if id < q.id then .node q (setQuantity l id v) r h
    else .node q l (setQuantity r id v) h

/-- The state that `main` keeps for the catalog and the cart. -/
structure Session where
  root : Node
  cart : ShoppingCart
deriving DecidableEq, Repr

/-- The available quantity of product `id` in the catalog, as `search` finds it. -/
def Session.stock (s : Session) (id : Int) : Option Int :=
  match search s.root id with
  | .nil => none
  | .node p _ _ _ => some p.quantity

/-- The test `productNode && productNode->product.quantity >= qty` of menu case 1. -/
def Session.addStepSucceeds (s : Session) (id qty : Int) : Bool :=
  match search s.root id with
  | .nil => false
  | .node p _ _ _ => decide (p.quantity ≥ qty)

/-- Menu case 1 of `main`: `search`, the stock test, `addItem` with the product's
name and price, then `quantity -= qty` in 32-bit `int` arithmetic. -/
def Session.addStep (s : Session) (id qty : Int) : Option Session :=
  match search s.root id with
  | .nil => some s
  | .node p _ _ _ =>
    if p.quantity ≥ qty then
      match s.cart.addItem id p.name p.price qty with
      | none => none
      | some c2 => some ⟨setQuantity s.root id (wrapInt (p.quantity - qty)), c2⟩
    else some s

/-- Menu case 5 of `main`: `cart.undo()`; the catalog is not touched. -/
def Session.undoStep (s : Session) : Option Session :=
  match s.cart.undo with
  | none => none
  | some c2 => some ⟨s.root, c2⟩

/-- Runs `n` rounds of menu case 1 with `id` and `qty` followed by menu case 5. -/
def Session.addUndoCycles : Nat → Session → Int → Int → Option Session
  | 0, s, _, _ => some s
  | n + 1, s, id, qty =>
    match s.addStep id qty with
    | none => none
    | some s1 =>
      match s1.undoStep with
      | none => none
      | some s2 => Session.addUndoCycles n s2 id qty

/-- The number of nodes that `search(root, id)` visits. -/
def searchVisits : Node → Int → Nat
  | .nil, _ => 0
  | .node q l r _, id =>
    if q.id = id then 1
    else if id < q.id then 1 + searchVisits l id
    else 1 + searchVisits r id

/-! ## Tree lemmas: heights and balance -/

/-- The C++ helper `max` is the maximum. -/
theorem max_eq (a b : Int) : SCMS.max a b = Max.max a b := by
  unfold SCMS.max; split <;> omega

theorem height_nil : height .nil = 0 := rfl

theorem height_node (q : Product) (l r : Node) (h : Int) : height (.node q l r h) = h := rfl

/-- With exact cached heights, `height` reads the true height. -/
theorem height_eq {t : Node} (h : HeightsExact t) : height t = (trueHeight t : Int) := by
  cases t with
  | nil => rfl
  | node q l r c => simpa [height, trueHeight] using h.1

/-- Ordering of a node in terms of its subtrees and root. -/
theorem ordered_node {q : Product} {l r : Node} {h : Int} :
    Ordered (.node q l r h) ↔
      Ordered l ∧ Ordered r ∧ (∀ x ∈ inorder l, x.id < q.id) ∧ (∀ y ∈ inorder r, q.id < y.id) := by
  unfold Ordered
  simp only [inorder, List.pairwise_append, List.pairwise_cons, List.mem_cons]
  constructor
  · rintro ⟨h1, ⟨h2, h3⟩, h4⟩
    exact ⟨h1, h3, fun x hx => h4 x hx q (Or.inl rfl), h2⟩
  · rintro ⟨h1, h2, h3, h4⟩
    refine ⟨h1, ⟨h4, h2⟩, ?_⟩
    intro x hx y hy
    rcases hy with rfl | hy
    · exact h3 x hx
    · exact lt_trans (h3 x hx) (h4 y hy)

/-- A right rotation keeps the in-order traversal. -/
theorem rightRotate_inorder {t t2 : Node} (h : rightRotate t = some t2) :
    inorder t2 = inorder t := by
  unfold rightRotate at h
  split at h
  · cases h; simp [inorder]
  · cases h

/-- A left rotation keeps the in-order traversal. -/
theorem leftRotate_inorder {t t2 : Node} (h : leftRotate t = some t2) :
    inorder t2 = inorder t := by
  unfold leftRotate at h
  split at h
  · cases h; simp [inorder]
  · cases h

/-- The rebalancing step of `insert` keeps the in-order traversal. -/
theorem insertRebalance_inorder {q p : Product} {l r t2 : Node}
    (h : insertRebalance q l r p = some t2) : inorder t2 = inorder l ++ q :: inorder r := by
  unfold insertRebalance at h
  dsimp only at h
  split_ifs at h with c1 c2
  · split at h
    · cases h
    · split_ifs at h
      · rw [rightRotate_inorder h]; simp [inorder]
      · split at h
        · cases h
        · rename_i l2 e
          rw [rightRotate_inorder h]; simp [inorder, leftRotate_inorder e]
      · cases h; simp [inorder]
  · split at h
    · cases h
    · split_ifs at h
      · rw [leftRotate_inorder h]; simp [inorder]
      · split at h
        · cases h
        · rename_i r2 e
          rw [leftRotate_inorder h]; simp [inorder, rightRotate_inorder e]
      · cases h; simp [inorder]
  · cases h; simp [inorder]

/-- The rebalancing step of `deleteNode` keeps the in-order traversal. -/
theorem deleteRebalance_inorder {q : Product} {l r t2 : Node}
    (h : deleteRebalance q l r = some t2) : inorder t2 = inorder l ++ q :: inorder r := by
  unfold deleteRebalance at h
  dsimp only at h
  split_ifs at h
  · rw [rightRotate_inorder h]; simp [inorder]
  · rw [leftRotate_inorder h]; simp [inorder]
  · split at h
    · cases h
    · rename_i l2 e
      rw [rightRotate_inorder h]; simp [inorder, leftRotate_inorder e]
  · split at h
    · cases h
    · rename_i r2 e
      rw [leftRotate_inorder h]; simp [inorder, rightRotate_inorder e]
  · cases h; simp [inorder]

theorem filter_id_lt_nil {k : Int} {R : List Product} (h : ∀ x ∈ R, k < x.id) :
    R.filter (fun x => decide (x.id < k)) = [] := by
  rw [List.filter_eq_nil_iff]
  intro x hx
  have := h x hx
  simp; omega

theorem filter_id_lt_self {k : Int} {L : List Product} (h : ∀ x ∈ L, x.id < k) :
    L.filter (fun x => decide (x.id < k)) = L := by
  rw [List.filter_eq_self]
  intro x hx
  simpa using h x hx

theorem filter_id_gt_nil {k : Int} {L : List Product} (h : ∀ x ∈ L, x.id < k) :
    L.filter (fun x => decide (k < x.id)) = [] := by
  rw [List.filter_eq_nil_iff]
  intro x hx
  have := h x hx
  simp; omega

theorem filter_id_gt_self {k : Int} {R : List Product} (h : ∀ x ∈ R, k < x.id) :
    R.filter (fun x => decide (k < x.id)) = R := by
  rw [List.filter_eq_self]
  intro x hx
  simpa using h x hx

theorem filter_id_ne_self {k : Int} {R : List Product} (h : ∀ x ∈ R, x.id ≠ k) :
    R.filter (fun x => decide (x.id ≠ k)) = R := by
  rw [List.filter_eq_self]
  intro x hx
  simpa using h x hx

/-- The in-order traversal after inserting a product with a new id. -/
theorem insert_inorder (p : Product) :
    ∀ (t t2 : Node), Ordered t → p.id ∉ ids t → insert t p = some t2 →
      inorder t2 = (inorder t).filter (fun x => decide (x.id < p.id)) ++
        p :: (inorder t).filter (fun x => decide (p.id < x.id)) := by
  intro t
  induction t with
  | nil =>
    intro t2 _ _ h
    cases h
    simp [inorder]
  | node q l r c ihl ihr =>
    intro t2 ho hn h
    obtain ⟨ol, or_, hlq, hqr⟩ := ordered_node.1 ho
    simp only [ids, inorder, List.map_append, List.map_cons, List.mem_append, List.mem_cons,
      not_or] at hn
    obtain ⟨hnl, hnq, hnr⟩ := hn
    unfold insert at h
    split_ifs at h with c1 c2
    · split at h
      · cases h
      · rename_i l2 e
        rw [insertRebalance_inorder h, ihl l2 ol hnl e]
        have hR : ∀ x ∈ inorder r, p.id < x.id := fun x hx => lt_trans c1 (hqr x hx)
        simp [inorder, List.filter_append, List.filter_cons, c1, filter_id_lt_nil hR,
          filter_id_gt_self hR, not_lt.2 (le_of_lt c1)]
    · split at h
      · cases h
      · rename_i r2 e
        rw [insertRebalance_inorder h, ihr r2 or_ hnr e]
        have hL : ∀ x ∈ inorder l, x.id < p.id := fun x hx => lt_trans (hlq x hx) c2
        simp [inorder, List.filter_append, List.filter_cons, c2, filter_id_lt_self hL,
          filter_id_gt_nil hL, not_lt.2 (le_of_lt c2)]
    · exact absurd (le_antisymm (not_lt.1 c2) (not_lt.1 c1)) hnq

/-- On a balanced node with exact heights the rebalancing step of `insert`
returns the node as it is. -/
theorem insertRebalance_noop {q p : Product} {l r : Node} {h : Int}
    (he : HeightsExact (.node q l r h)) (hb : Balanced (.node q l r h)) :
    insertRebalance q l r p = some (.node q l r h) := by
  obtain ⟨hh, hel, her⟩ := he
  obtain ⟨b1, b2, _, _⟩ := hb
  unfold insertRebalance
  simp only [getBalance, height_eq hel, height_eq her, max_eq]
  rw [if_neg (by omega), if_neg (by omega), hh]
  congr 2
  push_cast
  omega

/-- On a tree satisfying the invariants, inserting an id already present returns the tree itself. -/
theorem insert_dup (p : Product) :
    ∀ t : Node, AVL t → p.id ∈ ids t → insert t p = some t := by
  intro t
  induction t with
  | nil => intro _ hm; simp [ids, inorder] at hm
  | node q l r h ihl ihr =>
    rintro ⟨he, hb, ho⟩ hm
    obtain ⟨ol, or_, hlq, hqr⟩ := ordered_node.1 ho
    simp only [ids, inorder, List.map_append, List.map_cons, List.mem_append, List.mem_cons,
      List.mem_map] at hm
    unfold insert
    split_ifs with c1 c2
    · have hml : p.id ∈ ids l := by
        rcases hm with ⟨x, hx, e⟩ | e | ⟨x, hx, e⟩
        · exact List.mem_map.2 ⟨x, hx, e⟩
        · omega
        · have := hqr x hx; omega
      rw [ihl ⟨he.2.1, hb.2.2.1, ol⟩ hml]
      exact insertRebalance_noop he hb
    · have hmr : p.id ∈ ids r := by
        rcases hm with ⟨x, hx, e⟩ | e | ⟨x, hx, e⟩
        · have := hlq x hx; omega
        · omega
        · exact List.mem_map.2 ⟨x, hx, e⟩
      rw [ihr ⟨he.2.2, hb.2.2.2, or_⟩ hmr]
      exact insertRebalance_noop he hb
    · rfl

/-- Inserting a new id keeps the in-order traversal strictly ascending. -/
theorem insert_ordered {p : Product} {t t2 : Node} (ho : Ordered t) (hn : p.id ∉ ids t)
    (h : insert t p = some t2) : Ordered t2 := by
  unfold Ordered at ho ⊢
  rw [insert_inorder p t t2 ho hn h, List.pairwise_append]
  refine ⟨ho.filter _, ?_, ?_⟩
  · rw [List.pairwise_cons]
    refine ⟨?_, ho.filter _⟩
    intro x hx
    simpa using (List.mem_filter.1 hx).2
  · intro x hx y hy
    have hx2 : x.id < p.id := by simpa using (List.mem_filter.1 hx).2
    rcases List.mem_cons.1 hy with rfl | hy
    · exact hx2
    · have hy2 : p.id < y.id := by simpa using (List.mem_filter.1 hy).2
      exact lt_trans hx2 hy2

/-- On a non-empty tree `minValueNode` returns a node without left child whose
product is the first of the in-order traversal. -/
theorem minValueNode_spec :
    ∀ t : Node, t ≠ .nil →
      ∃ tp tr th, minValueNode t = some (.node tp .nil tr th) ∧
        ∃ rest, inorder t = tp :: rest := by
  intro t
  induction t with
  | nil => intro h; exact absurd rfl h
  | node q l r h ihl _ =>
    intro _
    cases l with
    | nil => exact ⟨q, r, h, rfl, inorder r, by simp [inorder]⟩
    | node lp ll lr lh =>
      obtain ⟨tp, tr, th, e, rest, e2⟩ := ihl (by simp)
      refine ⟨tp, tr, th, ?_, rest ++ q :: inorder r, ?_⟩
      · rw [minValueNode]; exact e
      · rw [inorder, e2]; simp

theorem filter_id_ne_self2 {k : Int} {R : List Product} (h : ∀ x ∈ R, x.id ≠ k) :
    R.filter (fun x => !decide (x.id = k)) = R := by
  rw [List.filter_eq_self]
  intro x hx
  simpa using h x hx

/-- The in-order traversal after `deleteNode`: the product with the id is filtered out. -/
theorem deleteNode_inorder :
    ∀ (t : Node) (k : Int) (t2 : Node), Ordered t → deleteNode t k = some t2 →
      inorder t2 = (inorder t).filter (fun x => decide (x.id ≠ k)) := by
  intro t
  induction t with
  | nil =>
    intro k t2 _ h
    cases h
    simp [inorder]
  | node q l r c ihl ihr =>
    intro k t2 ho h
    obtain ⟨ol, or_, hlq, hqr⟩ := ordered_node.1 ho
    unfold deleteNode at h
    by_cases c1 : k < q.id
    · rw [if_pos c1] at h
      split at h
      · cases h
      · rename_i l2 e
        rw [deleteRebalance_inorder h, ihl k l2 ol e]
        have hR : ∀ x ∈ inorder r, x.id ≠ k := fun x hx => by have := hqr x hx; omega
        have hq : q.id ≠ k := by omega
        simp [inorder, List.filter_append, List.filter_cons, hq, filter_id_ne_self2 hR]
    rw [if_neg c1] at h
    by_cases c2 : k > q.id
    · rw [if_pos c2] at h
      split at h
      · cases h
      · rename_i r2 e
        rw [deleteRebalance_inorder h, ihr k r2 or_ e]
        have hL : ∀ x ∈ inorder l, x.id ≠ k := fun x hx => by have := hlq x hx; omega
        have hq : q.id ≠ k := by omega
        simp [inorder, List.filter_append, List.filter_cons, hq, filter_id_ne_self2 hL]
    rw [if_neg c2] at h
    have hk : q.id = k := by omega
    have hL : ∀ x ∈ inorder l, x.id ≠ k := fun x hx => by have := hlq x hx; omega
    have hR : ∀ x ∈ inorder r, x.id ≠ k := fun x hx => by have := hqr x hx; omega
    have hgoal : (inorder (.node q l r c)).filter (fun x => decide (x.id ≠ k)) =
        inorder l ++ inorder r := by
      simp [inorder, List.filter_append, List.filter_cons, hk, filter_id_ne_self2 hL,
        filter_id_ne_self2 hR]
    rw [hgoal]
    by_cases c3 : l = .nil ∨ r = .nil
    · rw [if_pos c3] at h
      by_cases hl : l = .nil
      · subst hl
        simp at h
        subst h
        simp [inorder]
      · have hr : r = .nil := by tauto
        subst hr
        simp [hl] at h
        subst h
        simp [inorder]
    · rw [if_neg c3] at h
      have hr : r ≠ .nil := fun hc => c3 (Or.inr hc)
      obtain ⟨tp, tr, th, e, rest, e2⟩ := minValueNode_spec r hr
      rw [e] at h
      dsimp only at h
      split at h
      · cases h
      · rename_i r2 e3
        rw [deleteRebalance_inorder h, ihr tp.id r2 or_ e3, e2]
        have hp : (tp :: rest).Pairwise (fun a b => a.id < b.id) := by
          have := or_
          unfold Ordered at this
          rwa [e2] at this
        rw [List.pairwise_cons] at hp
        have hrest : ∀ x ∈ rest, x.id ≠ tp.id := fun x hx => by have := hp.1 x hx; omega
        simp [List.filter_cons, filter_id_ne_self2 hrest]

/-- On a balanced node with exact heights the rebalancing step of `deleteNode`
returns the node as it is. -/
theorem deleteRebalance_noop {q : Product} {l r : Node} {h : Int}
    (he : HeightsExact (.node q l r h)) (hb : Balanced (.node q l r h)) :
    deleteRebalance q l r = some (.node q l r h) := by
  obtain ⟨hh, hel, her⟩ := he
  obtain ⟨b1, b2, _, _⟩ := hb
  unfold deleteRebalance
  simp only [getBalance, height_eq hel, height_eq her, max_eq]
  rw [if_neg (by omega), if_neg (by omega), if_neg (by omega), if_neg (by omega), hh]
  congr 2
  push_cast
  omega

/-- On a balanced tree with exact heights, deleting an id that does not occur
returns the tree itself. -/
theorem deleteNode_absent :
    ∀ (t : Node) (k : Int), HeightsExact t → Balanced t → k ∉ ids t →
      deleteNode t k = some t := by
  intro t
  induction t with
  | nil => intro k _ _ _; rfl
  | node q l r h ihl ihr =>
    intro k he hb hn
    have e3 := deleteRebalance_noop he hb
    obtain ⟨hh, hel, her⟩ := he
    obtain ⟨b1, b2, bl, br⟩ := hb
    simp only [ids, inorder, List.map_append, List.map_cons, List.mem_append, List.mem_cons,
      not_or] at hn
    obtain ⟨hnl, hnq, hnr⟩ := hn
    unfold deleteNode
    by_cases c1 : k < q.id
    · rw [if_pos c1, ihl k hel bl hnl]
      exact e3
    rw [if_neg c1]
    by_cases c2 : k > q.id
    · rw [if_pos c2, ihr k her br hnr]
      exact e3
    · omega

/-- When `insert` of an id already present returns, the in-order traversal is
the one before the call: no product is added and none is rewritten. -/
theorem insert_inorder_dup (p : Product) :
    ∀ (t t2 : Node), Ordered t → p.id ∈ ids t → insert t p = some t2 →
      inorder t2 = inorder t := by
  intro t
  induction t with
  | nil => intro _ _ hm; simp [ids, inorder] at hm
  | node q l r c ihl ihr =>
    intro t2 ho hm h
    obtain ⟨ol, or_, hlq, hqr⟩ := ordered_node.1 ho
    simp only [ids, inorder, List.map_append, List.map_cons, List.mem_append, List.mem_cons,
      List.mem_map] at hm
    unfold insert at h
    split_ifs at h with c1 c2
    · have hml : p.id ∈ ids l := by
        rcases hm with ⟨x, hx, e⟩ | e | ⟨x, hx, e⟩
        · exact List.mem_map.2 ⟨x, hx, e⟩
        · omega
        · have := hqr x hx; omega
      split at h
      · cases h
      · rename_i l2 e
        rw [insertRebalance_inorder h, ihl l2 ol hml e]
        simp [inorder]
    · have hmr : p.id ∈ ids r := by
        rcases hm with ⟨x, hx, e⟩ | e | ⟨x, hx, e⟩
        · have := hlq x hx; omega
        · omega
        · exact List.mem_map.2 ⟨x, hx, e⟩
      split at h
      · cases h
      · rename_i r2 e
        rw [insertRebalance_inorder h, ihr r2 or_ hmr e]
        simp [inorder]
    · cases h
      rfl

/-- When `insert` returns, it keeps the in-order traversal strictly ascending
by id, whether the id was present or not. -/
theorem insert_keeps_ordered {p : Product} {t t2 : Node} (ho : Ordered t)
    (h : insert t p = some t2) : Ordered t2 := by
  by_cases hm : p.id ∈ ids t
  · unfold Ordered
    rw [insert_inorder_dup p t t2 ho hm h]
    exact ho
  · exact insert_ordered ho hm h

/-- When `deleteNode` returns, it keeps the in-order traversal strictly ascending by id. -/
theorem deleteNode_keeps_ordered {k : Int} {t t2 : Node} (ho : Ordered t)
    (h : deleteNode t k = some t2) : Ordered t2 := by
  unfold Ordered at ho ⊢
  rw [deleteNode_inorder t k t2 ho h]
  exact ho.filter _

/-- Every sequence of calls that returns keeps the in-order traversal strictly ascending. -/
theorem applyOps_ordered :
    ∀ (ops : List TreeOp) (t t2 : Node), Ordered t → applyOps t ops = some t2 → Ordered t2
  | [], t, t2, ho, h => by
    cases h
    exact ho
  | op :: ops, t, t2, ho, h => by
    unfold applyOps at h
    split at h
    · cases h
    · rename_i t1 e
      have ho1 : Ordered t1 := by
        cases op with
        | ins p => exact insert_keeps_ordered ho e
        | del k => exact deleteNode_keeps_ordered ho e
      exact applyOps_ordered ops t1 t2 ho1 h

/-- The ten inserts of `main` build `seedTree`. -/
theorem seed_run : applyOps .nil seedOps = some seedTree := by decide

/-- The seed catalog is balanced. -/
theorem seedTree_balanced : Balanced seedTree := by
  simp [seedTree, leaf, Balanced, trueHeight]

/-- The cached heights of the seed catalog are exact. -/
theorem seedTree_heights : HeightsExact seedTree := by
  simp [seedTree, leaf, HeightsExact, trueHeight]

/-- The empty tree satisfies the three invariants. -/
theorem avl_nil : AVL .nil := ⟨trivial, trivial, List.Pairwise.nil⟩

/-! ## Cart lemmas: free store, stack and list segments -/

/-- A live address lies inside the free store. -/
theorem Mem.read_lt {m : Mem} {a : Nat} {n : CartNode} (h : m.read a = some n) : a < m.length := by
  unfold Mem.read at h
  by_contra hc
  rw [List.getD_eq_default _ _ (not_lt.1 hc)] at h
  cases h

/-- Reading after a write. -/
theorem Mem.read_write {m : Mem} {a : Nat} (n : CartNode) (b : Nat) (h : a < m.length) :
    (m.write a n).read b = if b = a then some n else m.read b := by
  unfold Mem.read Mem.write
  simp only [List.getD_eq_getElem?_getD, List.getElem?_set]
  by_cases e : a = b
  · subst e; simp [h]
  · rw [if_neg e, if_neg (Ne.symm e)]

/-- Reading after a delete. -/
theorem Mem.read_free {m : Mem} (a b : Nat) :
    (m.free a).read b = if b = a then none else m.read b := by
  unfold Mem.read Mem.free
  simp only [List.getD_eq_getElem?_getD, List.getElem?_set]
  by_cases e : a = b
  · subst e
    by_cases h : a < m.length <;> simp [h]
  · rw [if_neg e, if_neg (Ne.symm e)]

/-- Reading after an allocation. -/
theorem Mem.read_alloc {m : Mem} (n : CartNode) (b : Nat) :
    (m.alloc n).read b = if b = m.length then some n else m.read b := by
  unfold Mem.read Mem.alloc
  simp only [List.getD_eq_getElem?_getD]
  by_cases e : b = m.length
  · subst e; simp
  · rw [if_neg e]
    by_cases h : b < m.length
    · rw [List.getElem?_append_left h]
    · rw [List.getElem?_eq_none (by simp; omega), List.getElem?_eq_none (by omega)]

theorem take_succ_set {α : Type} (a : α) :
    ∀ (l : List α) (k : Nat), k < l.length → (l.set k a).take (k + 1) = l.take k ++ [a]
  | [], k, h => by simp at h
  | x :: xs, 0, _ => by simp
  | x :: xs, k + 1, h => by
    simp only [List.set_cons_succ, List.take_succ_cons, List.cons_append, List.cons.injEq,
      true_and]
    exact take_succ_set a xs k (by simpa using h)

/-- A `push` on a stack with room appends the record and keeps the invariant. -/
theorem Stack.records_push {s : Stack} (h : s.OK) (h2 : s.top < 99) (t : String) (i : Int)
    (n : String) (q : Int) :
    (s.push t i n q).records = s.records ++ [⟨t, i, n, q⟩] ∧ (s.push t i n q).OK := by
  obtain ⟨h0, h1, h3⟩ := h
  unfold Stack.push Stack.records Stack.OK
  rw [if_pos h2]
  simp only [List.length_set]
  refine ⟨?_, h0, by omega, by omega⟩
  have e : (s.top + 1 + 1).toNat = (s.top + 1).toNat + 1 := by omega
  rw [e, take_succ_set _ _ _ (by omega)]

theorem lastPtr_snoc (prv : Option Nat) (ps : List (Nat × CartLine)) (a : Nat) (l : CartLine) :
    lastPtr prv (ps ++ [(a, l)]) = some a := by
  induction ps generalizing prv with
  | nil => rfl
  | cons x xs ih => obtain ⟨b, lb⟩ := x; exact ih _

/-- A segment does not depend on memory outside its addresses. -/
theorem seg_frame {m m2 : Mem} {nxt : Option Nat} :
    ∀ (ps : List (Nat × CartLine)) (prv cur : Option Nat),
      (∀ a ∈ ps.map Prod.fst, m2.read a = m.read a) → Seg m prv cur ps nxt →
        Seg m2 prv cur ps nxt
  | [], _, _, _, h => h
  | (a, l) :: rest, prv, cur, hf, h => by
    obtain ⟨hc, n, hr, hl, hp, hrest⟩ := h
    refine ⟨hc, n, ?_, hl, hp, ?_⟩
    · rw [hf a (by simp), hr]
    · exact seg_frame rest _ _ (fun b hb => hf b (by simp at hb ⊢; exact Or.inr hb)) hrest

/-- Two consecutive segments form one segment. -/
theorem seg_append {m : Mem} {nxt mid : Option Nat} {ps2 : List (Nat × CartLine)} :
    ∀ (ps1 : List (Nat × CartLine)) (prv cur : Option Nat),
      Seg m prv cur ps1 mid → Seg m (lastPtr prv ps1) mid ps2 nxt →
        Seg m prv cur (ps1 ++ ps2) nxt
  | [], _, _, h1, h2 => by
    cases h1
    exact h2
  | (a, l) :: rest, prv, cur, h1, h2 => by
    obtain ⟨hc, n, hr, hl, hp, hrest⟩ := h1
    exact ⟨hc, n, hr, hl, hp, seg_append rest _ _ hrest h2⟩

/-- A segment splits at any point into two consecutive segments. -/
theorem seg_split {m : Mem} {nxt : Option Nat} {ps2 : List (Nat × CartLine)} :
    ∀ (ps1 : List (Nat × CartLine)) (prv cur : Option Nat),
      Seg m prv cur (ps1 ++ ps2) nxt →
        ∃ mid, Seg m prv cur ps1 mid ∧ Seg m (lastPtr prv ps1) mid ps2 nxt
  | [], _, cur, h => ⟨cur, rfl, h⟩
  | (a, l) :: rest, prv, cur, h => by
    obtain ⟨hc, n, hr, hl, hp, hrest⟩ := h
    obtain ⟨mid, h1, h2⟩ := seg_split rest _ _ hrest
    exact ⟨mid, ⟨hc, n, hr, hl, hp, h1⟩, h2⟩

/-- The addresses of a segment lie inside the free store. -/
theorem seg_lt {m : Mem} {nxt : Option Nat} :
    ∀ (ps : List (Nat × CartLine)) (prv cur : Option Nat),
      Seg m prv cur ps nxt → ∀ a ∈ ps.map Prod.fst, a < m.length
  | [], _, _ => by simp
  | (a, l) :: rest, prv, cur => by
    rintro ⟨hc, n, hr, hl, hp, hrest⟩ b hb
    simp only [List.map_cons, List.mem_cons] at hb
    rcases hb with rfl | hb
    · exact Mem.read_lt hr
    · exact seg_lt rest _ _ hrest b hb

/-- A segment of distinct addresses is no longer than the free store, so the
bound given to the loops is enough. -/
theorem seg_length_le {m : Mem} {ps : List (Nat × CartLine)} {prv cur nxt : Option Nat}
    (h : Seg m prv cur ps nxt) (hn : (ps.map Prod.fst).Nodup) : ps.length ≤ m.length := by
  have h1 : ps.map Prod.fst ⊆ List.range m.length := fun a ha =>
    List.mem_range.2 (seg_lt ps _ _ h a ha)
  have := (List.subperm_of_subset hn h1).length_le
  simpa using this

/-- Overwriting the `next` of the last node of a segment. -/
theorem seg_redirect {m m2 : Mem} {front : List (Nat × CartLine)} {pa : Nat} {lp : CartLine}
    {prv cur x y : Option Nat} (h : Seg m prv cur (front ++ [(pa, lp)]) x)
    (hf : ∀ a ∈ front.map Prod.fst, m2.read a = m.read a)
    (hw : ∀ pn, m.read pa = some pn → m2.read pa = some { pn with next := y }) :
    Seg m2 prv cur (front ++ [(pa, lp)]) y := by
  obtain ⟨mid, h1, h2⟩ := seg_split front _ _ h
  refine seg_append front _ _ (seg_frame front _ _ hf h1) ?_
  obtain ⟨hc, n, hr, hl, hp, _⟩ := h2
  exact ⟨hc, _, hw n hr, hl, hp, rfl⟩

/-- Overwriting the `prev` of the first node of a segment. -/
theorem seg_rehead {m m2 : Mem} {rest : List (Nat × CartLine)} {b : Nat} {lb : CartLine}
    {prv cur nxt y : Option Nat} (h : Seg m prv cur ((b, lb) :: rest) nxt)
    (hf : ∀ a ∈ rest.map Prod.fst, m2.read a = m.read a)
    (hw : ∀ bn, m.read b = some bn → m2.read b = some { bn with prev := y }) :
    Seg m2 y cur ((b, lb) :: rest) nxt := by
  obtain ⟨hc, n, hr, hl, hp, hrest⟩ := h
  exact ⟨hc, _, hw n hr, hl, rfl, seg_frame rest _ _ hf hrest⟩

/-- The loop of `displayCart` prints the lines of a null-terminated segment. -/
theorem seg_lines {m : Mem} :
    ∀ (ps : List (Nat × CartLine)) (prv cur : Option Nat) (fuel : Nat),
      Seg m prv cur ps none → ps.length ≤ fuel → linesFrom m fuel cur = some (ps.map Prod.snd)
  | [], _, _, fuel, h, _ => by
    cases h
    cases fuel <;> rfl
  | (a, l) :: rest, prv, cur, fuel, h, hf => by
    obtain ⟨hc, n, hr, hl, hp, hrest⟩ := h
    subst hc
    cases fuel with
    | zero => simp at hf
    | succ fuel =>
      rw [linesFrom, hr]
      dsimp only
      rw [seg_lines rest _ _ fuel hrest (by simpa using hf)]
      simp [hl]

/-- The loop of `displayCart` visits the addresses of a null-terminated segment. -/
theorem seg_addrs {m : Mem} :
    ∀ (ps : List (Nat × CartLine)) (prv cur : Option Nat) (fuel : Nat),
      Seg m prv cur ps none → ps.length ≤ fuel → addrsFrom m fuel cur = some (ps.map Prod.fst)
  | [], _, _, fuel, h, _ => by
    cases h
    cases fuel <;> rfl
  | (a, l) :: rest, prv, cur, fuel, h, hf => by
    obtain ⟨hc, n, hr, hl, hp, hrest⟩ := h
    subst hc
    cases fuel with
    | zero => simp at hf
    | succ fuel =>
      rw [addrsFrom, hr]
      dsimp only
      rw [seg_addrs rest _ _ fuel hrest (by simpa using hf)]
      simp

/-- The scan loop ends on the first node whose line has the id, or on null. -/
theorem seg_find {m : Mem} (id : Int) :
    ∀ (ps : List (Nat × CartLine)) (prv cur : Option Nat) (fuel : Nat),
      Seg m prv cur ps none → ps.length ≤ fuel →
        findNode m id fuel cur =
          some ((ps.find? (fun x => decide (x.2.productId = id))).map Prod.fst)
  | [], _, _, fuel, h, _ => by
    cases h
    cases fuel <;> rfl
  | (a, l) :: rest, prv, cur, fuel, h, hf => by
    obtain ⟨hc, n, hr, hl, hp, hrest⟩ := h
    subst hc
    cases fuel with
    | zero => simp at hf
    | succ fuel =>
      rw [findNode, hr]
      dsimp only
      have e : n.productId = l.productId := by rw [← hl]; rfl
      by_cases c : l.productId = id
      · rw [if_neg (by rw [e]; simpa using c), List.find?_cons_of_pos _ (by simpa using c)]
        rfl
      · rw [if_pos (by rw [e]; exact c), List.find?_cons_of_neg _ (by simpa using c)]
        exact seg_find id rest _ _ fuel hrest (by simpa using hf)

/-- The loop of `addItem` ends on the last node of the list. -/
theorem seg_last {m : Mem} :
    ∀ (front : List (Nat × CartLine)) (prv : Option Nat) (h t : Nat) (l : CartLine) (fuel : Nat),
      Seg m prv (some h) (front ++ [(t, l)]) none → front.length + 1 ≤ fuel →
        lastNode m fuel h = some t
  | [], prv, h, t, l, fuel, hs, hf => by
    obtain ⟨hc, n, hr, hl, hp, hrest⟩ := hs
    cases hc
    cases fuel with
    | zero => simp at hf
    | succ fuel =>
      have hn : n.next = none := hrest
      rw [lastNode, hr]
      dsimp only
      rw [hn]
  | (a, la) :: rest, prv, h, t, l, fuel, hs, hf => by
    obtain ⟨hc, n, hr, hl, hp, hrest⟩ := hs
    cases hc
    cases fuel with
    | zero => simp at hf
    | succ fuel =>
      rw [lastNode, hr]
      dsimp only
      cases hnx : n.next with
      | none =>
        rw [hnx] at hrest
        cases rest with
        | nil => exact absurd hrest.1 (by simp)
        | cons x xs => exact absurd hrest.1 (by simp)
      | some b =>
        rw [hnx] at hrest
        dsimp only
        exact seg_last rest _ b t l fuel hrest (by simpa using hf)

theorem Mem.length_alloc (m : Mem) (n : CartNode) : (m.alloc n).length = m.length + 1 := by
  simp [Mem.alloc]

theorem Mem.length_write (m : Mem) (a : Nat) (n : CartNode) : (m.write a n).length = m.length := by
  simp [Mem.write]

/-- A segment that starts at the null pointer is empty. -/
theorem seg_none {m : Mem} {prv nxt : Option Nat} {ps : List (Nat × CartLine)}
    (h : Seg m prv none ps nxt) : ps = [] := by
  cases ps with
  | nil => rfl
  | cons x xs => obtain ⟨a, l⟩ := x; exact absurd h.1 (by simp)

/-- The method `addItem` on a cart with nodes `ps` returns; the new node sits at the fresh
address, after the nodes of `ps`, and the add record is pushed. -/
theorem addItem_spec {c : ShoppingCart} {ps : List (Nat × CartLine)} (hc : c.Holds ps)
    (id : Int) (name : String) (price : Price) (qty : Int) :
    ∃ c2, c.addItem id name price qty = some c2 ∧
      c2.Holds (ps ++ [(c.mem.length, ⟨id, name, price, qty⟩)]) ∧
      c2.undoStack = c.undoStack.push "add" id name qty := by
  obtain ⟨hnd, hseg⟩ := hc
  have hlt := seg_lt ps _ _ hseg
  have hnd2 : ((ps ++ [(c.mem.length, (⟨id, name, price, qty⟩ : CartLine))]).map Prod.fst).Nodup := by
    rw [List.map_append, List.nodup_append]
    refine ⟨hnd, by simp, ?_⟩
    intro a ha hb
    simp only [List.map_cons, List.map_nil, List.mem_singleton] at hb
    have := hlt a ha
    omega
  rcases List.eq_nil_or_concat ps with rfl | ⟨front, ⟨t, l⟩, rfl⟩
  · have hh : c.head = none := hseg
    refine ⟨⟨c.mem.alloc ⟨id, name, price, qty, none, none⟩, some c.mem.length,
      c.undoStack.push "add" id name qty⟩, by simp [ShoppingCart.addItem, hh], ⟨hnd2, ?_⟩, rfl⟩
    refine ⟨rfl, ⟨id, name, price, qty, none, none⟩, ?_, rfl, rfl, rfl⟩
    rw [Mem.read_alloc, if_pos rfl]
  · rw [List.concat_eq_append] at hseg hnd hlt hnd2 ⊢
    cases hh : c.head with
    | none =>
      rw [hh] at hseg
      have := seg_none hseg
      simp at this
    | some h =>
      rw [hh] at hseg
      obtain ⟨mid, _, h2⟩ := seg_split front _ _ hseg
      obtain ⟨_, tn, hrt, _, _, _⟩ := h2
      have htlt : t < c.mem.length := Mem.read_lt hrt
      have hlen := seg_length_le hseg hnd
      simp only [List.length_append, List.length_singleton] at hlen
      set nn : CartNode := ⟨id, name, price, qty, none, none⟩ with hnn
      set m1 := c.mem.alloc nn with hm1
      have hfr : ∀ a, a < c.mem.length → m1.read a = c.mem.read a := by
        intro a ha
        rw [hm1, Mem.read_alloc, if_neg (by omega)]
      have hseg1 : Seg m1 none (some h) (front ++ [(t, l)]) none :=
        seg_frame _ _ _ (fun a ha => hfr a (hlt a ha)) hseg
      have hlast : lastNode m1 m1.length h = some t :=
        seg_last front _ h t l _ hseg1 (by rw [hm1, Mem.length_alloc]; omega)
      have hr1 : m1.read t = some tn := by rw [hfr t htlt, hrt]
      set m2 := m1.write t { tn with next := some c.mem.length } with hm2
      have hr2 : m2.read c.mem.length = some nn := by
        rw [hm2, Mem.read_write _ _ (by rw [hm1, Mem.length_alloc]; omega), if_neg (by omega),
          hm1, Mem.read_alloc, if_pos rfl]
      set m3 := m2.write c.mem.length { nn with prev := some t } with hm3
      have hlen2 : c.mem.length < m2.length := by
        rw [hm2, Mem.length_write, hm1, Mem.length_alloc]; omega
      have hlen1 : t < m1.length := by rw [hm1, Mem.length_alloc]; omega
      have hrd : ∀ a, a ≠ c.mem.length → m3.read a = m2.read a := by
        intro a ha
        rw [hm3, Mem.read_write _ _ hlen2, if_neg ha]
      refine ⟨⟨m3, some h, c.undoStack.push "add" id name qty⟩, ?_, ⟨hnd2, ?_⟩, rfl⟩
      · simp only [ShoppingCart.addItem, hh, ← hnn, ← hm1, hlast, Mem.setNext, hr1, ← hm2,
          Mem.setPrev, hr2, ← hm3]
        simp
      · refine seg_append _ _ _ (seg_redirect (y := some c.mem.length) hseg ?_ ?_) ?_
        · intro a ha
          have hane : a ≠ t := by
            rintro rfl
            rw [List.map_append, List.nodup_append] at hnd
            exact hnd.2.2 ha (by simp)
          have := hlt a (by simp only [List.map_append, List.mem_append]; exact Or.inl ha)
          rw [hrd a (by omega), hm2, Mem.read_write _ _ hlen1, if_neg hane, hfr a this]
        · intro pn hpn
          rw [hrt] at hpn
          cases hpn
          rw [hrd t (by omega), hm2, Mem.read_write _ _ hlen1, if_pos rfl]
        · rw [lastPtr_snoc]
          refine ⟨rfl, { nn with prev := some t }, ?_, rfl, rfl, rfl⟩
          rw [hm3, Mem.read_write _ _ hlen2, if_pos rfl]

/-- The first element with the id, given that none before it has the id. -/
theorem find_first {id : Int} :
    ∀ (ps1 : List (Nat × CartLine)) (x : Nat × CartLine) (ps2 : List (Nat × CartLine)),
      x.2.productId = id → (∀ y ∈ ps1, y.2.productId ≠ id) →
        (ps1 ++ x :: ps2).find? (fun y => decide (y.2.productId = id)) = some x
  | [], x, ps2, hx, _ => by simp [hx]
  | y :: ys, x, ps2, hx, hno => by
    rw [List.cons_append, List.find?_cons_of_neg _ (by simpa using hno y (by simp))]
    exact find_first ys x ps2 hx (fun z hz => hno z (by simp [hz]))

/-- The method `removeItem` on a cart whose first node with the id is `(t, l)` returns; the
other nodes stay linked in their order, and the remove record is pushed. -/
theorem removeItem_found {c : ShoppingCart} {ps1 ps2 : List (Nat × CartLine)} {t : Nat}
    {l : CartLine} (hc : c.Holds (ps1 ++ (t, l) :: ps2)) {id : Int} (hid : l.productId = id)
    (hno : ∀ x ∈ ps1, x.2.productId ≠ id) :
    ∃ c2, c.removeItem id = some c2 ∧ c2.Holds (ps1 ++ ps2) ∧
      c2.undoStack = c.undoStack.push "remove" l.productId l.productName l.quantity := by
  obtain ⟨hnd, hseg⟩ := hc
  have hlen := seg_length_le hseg hnd
  have hlt := seg_lt _ _ _ hseg
  have hnd2 : ((ps1 ++ ps2).map Prod.fst).Nodup := by
    refine hnd.sublist (List.Sublist.map _ ?_)
    exact List.Sublist.append_left (List.sublist_cons_self _ _) _
  simp only [List.map_append, List.map_cons, List.nodup_append, List.nodup_cons,
    List.mem_cons, not_or] at hnd
  obtain ⟨hn1, ⟨ht2, hn2⟩, hdis⟩ := hnd
  have ht1 : t ∉ ps1.map Prod.fst := fun h => hdis h (List.mem_cons_self _ _)
  cases hh : c.head with
  | none =>
    rw [hh] at hseg
    have := seg_none hseg
    simp at this
  | some h =>
    rw [hh] at hseg
    have hfind : findNode c.mem id c.mem.length (some h) = some (some t) := by
      rw [seg_find id _ _ _ _ hseg hlen, find_first ps1 (t, l) ps2 hid hno]
      rfl
    obtain ⟨mid, hs1, hs2⟩ := seg_split ps1 _ _ hseg
    obtain ⟨hmid, tn, hrt, hline, hprev, hs3⟩ := hs2
    subst hmid
    have htl : t < c.mem.length := Mem.read_lt hrt
    have e1 : tn.productId = l.productId := by rw [← hline]; rfl
    have e2 : tn.productName = l.productName := by rw [← hline]; rfl
    have e3 : tn.quantity = l.quantity := by rw [← hline]; rfl
    -- the memory after the two pointer updates and the release of the node
    have key : ∃ m3 head1,
        c.removeItem id = some ⟨m3, head1,
          c.undoStack.push "remove" l.productId l.productName l.quantity⟩ ∧
        Seg m3 none head1 ps1 tn.next ∧ Seg m3 (lastPtr none ps1) tn.next ps2 none := by
      rcases List.eq_nil_or_concat ps1 with rfl | ⟨front, ⟨pa, lp⟩, rfl⟩
      · have hp : tn.prev = none := hprev
        cases ps2 with
        | nil =>
          have hnx : tn.next = none := hs3
          refine ⟨c.mem.free t, none, ?_, by rw [hnx]; rfl, by rw [hnx]; rfl⟩
          simp [ShoppingCart.removeItem, hh, hfind, hrt, hp, hnx, e1, e2, e3]
        | cons x rest =>
          obtain ⟨b, lb⟩ := x
          have hs3c := hs3
          obtain ⟨hnx, bn, hrb, _, _, _⟩ := hs3c
          have hbt : b ≠ t := by
            rintro rfl
            exact ht2 (by simp)
          have hbl : b < c.mem.length := Mem.read_lt hrb
          refine ⟨(c.mem.write b { bn with prev := none }).free t, some b, ?_, by rw [hnx]; rfl,
            ?_⟩
          · simp [ShoppingCart.removeItem, hh, hfind, hrt, hp, hnx, e1, e2, e3, Mem.setPrev, hrb]
          · rw [hnx] at hs3 ⊢
            refine seg_rehead hs3 ?_ ?_
            · intro a ha
              have hab : a ≠ b := by
                rintro rfl
                simp only [List.map_cons, List.nodup_cons] at hn2
                exact hn2.1 ha
              have hat : a ≠ t := by
                rintro rfl
                exact ht2 (by simp [ha])
              rw [Mem.read_free, if_neg hat, Mem.read_write _ _ hbl, if_neg hab]
            · intro bn2 hbn2
              rw [hrb] at hbn2
              cases hbn2
              rw [Mem.read_free, if_neg hbt, Mem.read_write _ _ hbl, if_pos rfl]
              rfl
      · rw [List.concat_eq_append] at hs1 hprev hno ht1 hn1 hdis ⊢
        rw [lastPtr_snoc] at hprev ⊢
        obtain ⟨mid2, hs4, hs5⟩ := seg_split front _ _ hs1
        have hs5c := hs5
        obtain ⟨_, pn, hrp, _, _, _⟩ := hs5c
        have hpl : pa < c.mem.length := Mem.read_lt hrp
        have hpt : pa ≠ t := by
          rintro rfl
          exact ht1 (by simp)
        have hpf : ∀ a ∈ front.map Prod.fst, a ≠ pa := by
          rintro a ha rfl
          rw [List.map_append, List.nodup_append] at hn1
          exact hn1.2.2 ha (by simp)
        have hft : ∀ a ∈ front.map Prod.fst, a ≠ t := by
          rintro a ha rfl
          exact ht1 (by simp [ha])
        cases ps2 with
        | nil =>
          have hnx : tn.next = none := hs3
          refine ⟨(c.mem.write pa { pn with next := none }).free t, some h, ?_, ?_,
            by rw [hnx]; rfl⟩
          · simp [ShoppingCart.removeItem, hh, hfind, hrt, hprev, hnx, e1, e2, e3, Mem.setNext,
              hrp]
          · rw [hnx]
            refine seg_redirect hs1 ?_ ?_
            · intro a ha
              rw [Mem.read_free, if_neg (hft a ha), Mem.read_write _ _ hpl, if_neg (hpf a ha)]
            · intro pn2 hpn2
              rw [hrp] at hpn2
              cases hpn2
              rw [Mem.read_free, if_neg hpt, Mem.read_write _ _ hpl, if_pos rfl]
        | cons x rest =>
          obtain ⟨b, lb⟩ := x
          have hs3c := hs3
          obtain ⟨hnx, bn, hrb, _, _, _⟩ := hs3c
          have hbt : b ≠ t := by
            rintro rfl
            exact ht2 (by simp)
          have hbl : b < c.mem.length := Mem.read_lt hrb
          have hbp : b ≠ pa := by
            rintro rfl
            exact hdis (a := b) (by simp) (List.mem_cons_of_mem _ (by simp))
          have hbf : ∀ a ∈ front.map Prod.fst, a ≠ b := by
            rintro a ha rfl
            exact hdis (a := a) (by simp [ha]) (List.mem_cons_of_mem _ (by simp))
          have hrb1 : (c.mem.write pa { pn with next := some b }).read b = some bn := by
            rw [Mem.read_write _ _ hpl, if_neg hbp, hrb]
          have hbl1 : b < (c.mem.write pa { pn with next := some b }).length := by
            rw [Mem.length_write]; exact hbl
          refine ⟨((c.mem.write pa { pn with next := some b }).write b
            { bn with prev := some pa }).free t, some h, ?_, ?_, ?_⟩
          · simp [ShoppingCart.removeItem, hh, hfind, hrt, hprev, hnx, e1, e2, e3, Mem.setNext,
              hrp, Mem.setPrev, hrb1]
          · rw [hnx]
            refine seg_redirect hs1 ?_ ?_
            · intro a ha
              rw [Mem.read_free, if_neg (hft a ha), Mem.read_write _ _ hbl1, if_neg (hbf a ha),
                Mem.read_write _ _ hpl, if_neg (hpf a ha)]
            · intro pn2 hpn2
              rw [hrp] at hpn2
              cases hpn2
              rw [Mem.read_free, if_neg hpt, Mem.read_write _ _ hbl1, if_neg (Ne.symm hbp),
                Mem.read_write _ _ hpl, if_pos rfl]
          · rw [hnx] at hs3 ⊢
            refine seg_rehead hs3 ?_ ?_
            · intro a ha
              have hab : a ≠ b := by
                rintro rfl
                simp only [List.map_cons, List.nodup_cons] at hn2
                exact hn2.1 ha
              have hat : a ≠ t := by
                rintro rfl
                exact ht2 (by simp [ha])
              have hap : a ≠ pa := by
                rintro rfl
                exact hdis (a := a) (by simp) (List.mem_cons_of_mem _ (by simp [ha]))
              rw [Mem.read_free, if_neg hat, Mem.read_write _ _ hbl1, if_neg hab,
                Mem.read_write _ _ hpl, if_neg hap]
            · intro bn2 hbn2
              rw [hrb] at hbn2
              cases hbn2
              rw [Mem.read_free, if_neg hbt, Mem.read_write _ _ hbl1, if_pos rfl]
    obtain ⟨m3, head1, e, k1, k2⟩ := key
    exact ⟨_, e, ⟨hnd2, seg_append ps1 _ _ k1 k2⟩, rfl⟩

/-- What `displayCart` prints for a cart made of the nodes `ps`. -/
theorem holds_display {c : ShoppingCart} {ps : List (Nat × CartLine)} (hc : c.Holds ps) :
    c.displayCart = some (ps.map Prod.snd) :=
  seg_lines ps _ _ _ hc.2 (seg_length_le hc.2 hc.1)

/-- The addresses of a cart made of the nodes `ps`. -/
theorem holds_addrs {c : ShoppingCart} {ps : List (Nat × CartLine)} (hc : c.Holds ps) :
    c.addrs = some (ps.map Prod.fst) :=
  seg_addrs ps _ _ _ hc.2 (seg_length_le hc.2 hc.1)

/-- The method `removeItem` on a cart without a line with the id returns the cart as it is. -/
theorem removeItem_absent {c : ShoppingCart} {ps : List (Nat × CartLine)} (hc : c.Holds ps)
    {id : Int} (hno : ∀ x ∈ ps, x.2.productId ≠ id) :
    c.removeItem id = some c ∧ c.removeItemFinds id = false := by
  cases hh : c.head with
  | none => simp [ShoppingCart.removeItem, ShoppingCart.removeItemFinds, hh]
  | some h =>
    have hf := seg_find id ps _ _ _ hc.2 (seg_length_le hc.2 hc.1)
    have hn : ps.find? (fun x => decide (x.2.productId = id)) = none := by
      rw [List.find?_eq_none]
      intro x hx
      simpa using hno x hx
    rw [hn, hh] at hf
    simp [ShoppingCart.removeItem, ShoppingCart.removeItemFinds, hh, hf]

/-- The scan of `removeItem` finds a node when a line has the id. -/
theorem removeItem_finds {c : ShoppingCart} {ps1 ps2 : List (Nat × CartLine)} {t : Nat}
    {l : CartLine} (hc : c.Holds (ps1 ++ (t, l) :: ps2)) {id : Int} (hid : l.productId = id)
    (hno : ∀ x ∈ ps1, x.2.productId ≠ id) : c.removeItemFinds id = true := by
  have hf := seg_find id _ _ _ _ hc.2 (seg_length_le hc.2 hc.1)
  rw [find_first ps1 (t, l) ps2 hid hno] at hf
  cases hh : c.head with
  | none =>
    have h2 := hc.2
    rw [hh] at h2
    have := seg_none h2
    simp at this
  | some h =>
    rw [hh] at hf
    simp [ShoppingCart.removeItemFinds, hh, hf]

/-- Splits the nodes of a cart at the first line with the id. -/
theorem split_first {id : Int} :
    ∀ (ps : List (Nat × CartLine)) (l : CartLine),
      (ps.map Prod.snd).find? (CartLine.hasId id) = some l →
        ∃ ps1 t ps2, ps = ps1 ++ (t, l) :: ps2 ∧ l.productId = id ∧
          (∀ x ∈ ps1, x.2.productId ≠ id) ∧
          (ps.map Prod.snd).eraseP (CartLine.hasId id) = (ps1 ++ ps2).map Prod.snd
  | [], l, h => by simp at h
  | (a, la) :: rest, l, h => by
    by_cases c : la.productId = id
    · have hp : CartLine.hasId id la = true := by simpa [CartLine.hasId] using c
      rw [List.map_cons, List.find?_cons_of_pos _ hp] at h
      cases h
      exact ⟨[], a, rest, rfl, c, by simp, by simp [List.eraseP_cons_of_pos, hp]⟩
    · have hp : ¬ CartLine.hasId id la = true := by simpa [CartLine.hasId] using c
      rw [List.map_cons, List.find?_cons_of_neg _ hp] at h
      obtain ⟨ps1, t, ps2, e, hl, hno, he⟩ := split_first rest l h
      refine ⟨(a, la) :: ps1, t, ps2, by rw [e]; rfl, hl, ?_, ?_⟩
      · intro x hx
        rcases List.mem_cons.1 hx with rfl | hx
        · exact c
        · exact hno x hx
      · rw [List.map_cons, List.eraseP_cons_of_neg hp, he]
        rfl

/-- No line has the id when the search for one finds none. -/
theorem absent_of_find_none {id : Int} {ps : List (Nat × CartLine)}
    (h : (ps.map Prod.snd).find? (CartLine.hasId id) = none) :
    ∀ x ∈ ps, x.2.productId ≠ id := by
  rw [List.find?_eq_none] at h
  intro x hx
  have := h x.2 (List.mem_map.2 ⟨x, hx, rfl⟩)
  simpa [CartLine.hasId] using this

/-- The method `push` keeps the stack invariant. -/
theorem Stack.push_ok {s : Stack} (h : s.OK) (t : String) (i : Int) (n : String) (q : Int) :
    (s.push t i n q).OK := by
  by_cases h2 : s.top < 99
  · exact (Stack.records_push h h2 t i n q).2
  · unfold Stack.push
    rw [if_neg h2]
    exact h

/-- The number of records is `top + 1`. -/
theorem Stack.records_length {s : Stack} (h : s.OK) : (s.records.length : Int) = s.top + 1 := by
  obtain ⟨h0, h1, h3⟩ := h
  unfold Stack.records
  rw [List.length_take, h0]
  omega

/-- A `push` on a full stack changes nothing. -/
theorem Stack.push_full {s : Stack} (h2 : ¬ s.top < 99) (t : String) (i : Int) (n : String)
    (q : Int) : s.push t i n q = s := by
  unfold Stack.push
  rw [if_neg h2]

/-- After a `push` on a stack with room, `pop` returns the record pushed and
leaves the records that were there before. -/
theorem Stack.pop_push {s : Stack} (h : s.OK) (h2 : s.top < 99) (t : String) (i : Int)
    (n : String) (q : Int) :
    (s.push t i n q).isEmpty = false ∧ (s.push t i n q).pop.1 = ⟨t, i, n, q⟩ ∧
      (s.push t i n q).pop.2.records = s.records ∧ (s.push t i n q).pop.2.OK ∧
      (s.push t i n q).pop.2.top = s.top := by
  obtain ⟨h0, h1, h3⟩ := h
  have hne : ¬ (s.top + 1 = -1) := by omega
  unfold Stack.push
  rw [if_pos h2]
  unfold Stack.pop Stack.isEmpty Stack.records Stack.OK
  simp only [if_neg hne]
  refine ⟨by simpa using hne, ?_, ?_, ⟨by simpa using h0, by omega, by omega⟩, by omega⟩
  · rw [List.getD_eq_getElem?_getD, List.getElem?_set_self (by omega)]
    rfl
  · have e : (s.top + 1 - 1 + 1).toNat = (s.top + 1).toNat := by omega
    rw [e, List.set_take, List.set_eq_of_length_le (by simp)]

/-- In a null-terminated segment, the node after each node points back to it. -/
theorem seg_next_link {m : Mem} :
    ∀ (ps : List (Nat × CartLine)) (prv cur : Option Nat), Seg m prv cur ps none →
      ∀ a ∈ ps.map Prod.fst, ∃ n, m.read a = some n ∧
        ∀ b, n.next = some b → ∃ nb, m.read b = some nb ∧ nb.prev = some a
  | [], _, _ => by simp
  | (a, l) :: rest, prv, cur => by
    rintro ⟨hc, n, hr, hl, hp, hrest⟩ x hx
    simp only [List.map_cons, List.mem_cons] at hx
    rcases hx with rfl | hx
    · refine ⟨n, hr, ?_⟩
      intro b hb
      cases rest with
      | nil =>
        have : n.next = none := hrest
        rw [this] at hb
        cases hb
      | cons y ys =>
        obtain ⟨b2, l2⟩ := y
        obtain ⟨hc2, n2, hr2, _, hp2, _⟩ := hrest
        rw [hb] at hc2
        cases hc2
        exact ⟨n2, hr2, hp2⟩
    · exact seg_next_link rest _ _ hrest x hx

/-- In a null-terminated segment, the node before each node points forward to it. -/
theorem seg_prev_link {m : Mem} :
    ∀ (ps : List (Nat × CartLine)) (prv cur : Option Nat), Seg m prv cur ps none →
      (∀ pa, prv = some pa → ∃ pn, m.read pa = some pn ∧ pn.next = cur) →
      ∀ a ∈ ps.map Prod.fst, ∃ n, m.read a = some n ∧
        ∀ b, n.prev = some b → ∃ nb, m.read b = some nb ∧ nb.next = some a
  | [], _, _ => by simp
  | (a, l) :: rest, prv, cur => by
    rintro ⟨hc, n, hr, hl, hp, hrest⟩ hprv x hx
    simp only [List.map_cons, List.mem_cons] at hx
    rcases hx with rfl | hx
    · refine ⟨n, hr, ?_⟩
      intro b hb
      rw [hp] at hb
      obtain ⟨pn, h1, h2⟩ := hprv b hb
      exact ⟨pn, h1, by rw [h2, hc]⟩
    · refine seg_prev_link rest _ _ hrest ?_ x hx
      intro pa hpa
      cases hpa
      exact ⟨n, hr, rfl⟩

/-- The list of a cart depends on its memory and head only. -/
theorem holds_of_mem_head {c c2 : ShoppingCart} {ps : List (Nat × CartLine)} (h : c.Holds ps)
    (hm : c2.mem = c.mem) (hh : c2.head = c.head) : c2.Holds ps := by
  unfold ShoppingCart.Holds at h ⊢
  rw [hm, hh]
  exact h

/-- A sequence of `addItem` and `removeItem` calls returns, keeps the cart well
linked, and changes the number of nodes by the adds minus the removes that
found a line. -/
theorem run_add_remove :
    ∀ (ops : List CartOp) (c : ShoppingCart) (ps : List (Nat × CartLine)),
      c.undoStack.OK → c.Holds ps → (∀ op ∈ ops, op.isAddOrRemove = true) →
        ∃ c2 ps2, runCart c ops = some c2 ∧ c2.undoStack.OK ∧ c2.Holds ps2 ∧
          ps2.length + removedCount c ops = ps.length + addCount ops
  | [], c, ps, hok, hc, _ => ⟨c, ps, rfl, hok, hc, rfl⟩
  | op :: ops, c, ps, hok, hc, hops => by
    have hrest : ∀ o ∈ ops, o.isAddOrRemove = true := fun o ho => hops o (by simp [ho])
    have hop := hops op (by simp)
    cases op with
    | addItem id name price qty =>
      obtain ⟨c1, e1, h1, hs1⟩ := addItem_spec hc id name price qty
      have hok1 : c1.undoStack.OK := by rw [hs1]; exact Stack.push_ok hok _ _ _ _
      obtain ⟨c2, ps2, e2, hok2, h2, hcount⟩ := run_add_remove ops c1 _ hok1 h1 hrest
      refine ⟨c2, ps2, ?_, hok2, h2, ?_⟩
      · simp only [runCart, ShoppingCart.step, e1]
        exact e2
      · simp only [removedCount, ShoppingCart.step, e1, addCount]
        simp only [List.length_append, List.length_singleton] at hcount
        omega
    | removeItem id =>
      cases hf : (ps.map Prod.snd).find? (CartLine.hasId id) with
      | none =>
        obtain ⟨e1, ef⟩ := removeItem_absent hc (absent_of_find_none hf)
        obtain ⟨c2, ps2, e2, hok2, h2, hcount⟩ := run_add_remove ops c ps hok hc hrest
        refine ⟨c2, ps2, ?_, hok2, h2, ?_⟩
        · simp only [runCart, ShoppingCart.step, e1]
          exact e2
        · simp only [removedCount, ShoppingCart.step, e1, ef, addCount]
          simp only [Bool.false_eq_true, if_false]
          omega
      | some l =>
        obtain ⟨ps1, t, ps3, e, hl, hno, _⟩ := split_first ps l hf
        subst e
        obtain ⟨c1, e1, h1, hs1⟩ := removeItem_found hc hl hno
        have ef := removeItem_finds hc hl hno
        have hok1 : c1.undoStack.OK := by rw [hs1]; exact Stack.push_ok hok _ _ _ _
        obtain ⟨c2, ps2, e2, hok2, h2, hcount⟩ := run_add_remove ops c1 _ hok1 h1 hrest
        refine ⟨c2, ps2, ?_, hok2, h2, ?_⟩
        · simp only [runCart, ShoppingCart.step, e1]
          exact e2
        · simp only [removedCount, ShoppingCart.step, e1, ef, addCount]
          simp only [List.length_append, List.length_cons, if_true] at hcount ⊢
          omega
    | modifyItem id q => simp [CartOp.isAddOrRemove] at hop
    | undo => simp [CartOp.isAddOrRemove] at hop

theorem stack_new_ok : Stack.new.OK := by
  refine ⟨by simp [Stack.new], by simp [Stack.new], by simp [Stack.new]⟩

theorem holds_new : ShoppingCart.new.Holds [] := ⟨List.nodup_nil, rfl⟩

/-- The method `modifyItem` overwrites the quantity of the first node with the id
and leaves the links, the other nodes and the log as they are. -/
theorem modifyItem_found {c : ShoppingCart} {ps1 ps2 : List (Nat × CartLine)} {t : Nat}
    {l : CartLine} (hc : c.Holds (ps1 ++ (t, l) :: ps2)) {id : Int} (hid : l.productId = id)
    (hno : ∀ x ∈ ps1, x.2.productId ≠ id) (q : Int) :
    ∃ c2, c.modifyItem id q = some c2 ∧
      c2.Holds (ps1 ++ (t, ⟨l.productId, l.productName, l.price, q⟩) :: ps2) ∧
      c2.undoStack = c.undoStack := by
  obtain ⟨hnd, hseg⟩ := hc
  have hlen := seg_length_le hseg hnd
  have hfind : findNode c.mem id c.mem.length c.head = some (some t) := by
    rw [seg_find id _ _ _ _ hseg hlen, find_first ps1 (t, l) ps2 hid hno]
    rfl
  have hnd0 := hnd
  simp only [List.map_append, List.map_cons, List.nodup_append, List.nodup_cons,
    List.mem_cons, not_or] at hnd
  obtain ⟨hn1, ⟨ht2, hn2⟩, hdis⟩ := hnd
  have ht1 : t ∉ ps1.map Prod.fst := fun h => hdis h (List.mem_cons_self _ _)
  obtain ⟨mid, hs1, hs2⟩ := seg_split ps1 _ _ hseg
  obtain ⟨hmid, tn, hrt, hline, hprev, hs3⟩ := hs2
  have htl : t < c.mem.length := Mem.read_lt hrt
  have hfr : ∀ a, a ≠ t →
      (c.mem.write t { tn with quantity := q }).read a = c.mem.read a := by
    intro a ha
    rw [Mem.read_write _ _ htl, if_neg ha]
  refine ⟨⟨c.mem.write t { tn with quantity := q }, c.head, c.undoStack⟩, ?_, ⟨?_, ?_⟩, rfl⟩
  · simp [ShoppingCart.modifyItem, hfind, hrt]
  · simpa using hnd0
  · refine seg_append ps1 _ _ (seg_frame ps1 _ _ ?_ hs1) ?_
    · intro a ha
      exact hfr a (fun e => ht1 (e ▸ ha))
    · refine ⟨hmid, { tn with quantity := q }, ?_, ?_, hprev, seg_frame ps2 _ _ ?_ hs3⟩
      · rw [Mem.read_write _ _ htl, if_pos rfl]
      · rw [← hline]; rfl
      · intro a ha
        exact hfr a (fun e => ht2 (e ▸ ha))

/-- The method `modifyItem` on a cart without a line with the id returns the cart as it is. -/
theorem modifyItem_absent {c : ShoppingCart} {ps : List (Nat × CartLine)} (hc : c.Holds ps)
    {id : Int} (hno : ∀ x ∈ ps, x.2.productId ≠ id) (q : Int) : c.modifyItem id q = some c := by
  have hf := seg_find id ps _ _ _ hc.2 (seg_length_le hc.2 hc.1)
  have hn : ps.find? (fun x => decide (x.2.productId = id)) = none := by
    rw [List.find?_eq_none]
    intro x hx
    simpa using hno x hx
  rw [hn] at hf
  simp [ShoppingCart.modifyItem, hf]

/-- The method `pop` keeps the stack invariant. -/
theorem Stack.pop_ok {s : Stack} (h : s.OK) : s.pop.2.OK := by
  obtain ⟨h0, h1, h3⟩ := h
  unfold Stack.pop
  split_ifs with c
  · exact ⟨h0, h1, h3⟩
  · exact ⟨h0, by simp only; omega, by simp only; omega⟩

/-- The method `addItem` returns and keeps the cart well formed. -/
theorem addItem_wf {c : ShoppingCart} (hw : c.WellFormed) (id : Int) (name : String)
    (price : Price) (qty : Int) :
    ∃ c2, c.addItem id name price qty = some c2 ∧ c2.WellFormed := by
  obtain ⟨hok, ps, hc⟩ := hw
  obtain ⟨c2, e, h2, hs⟩ := addItem_spec hc id name price qty
  exact ⟨c2, e, by rw [hs]; exact Stack.push_ok hok _ _ _ _, _, h2⟩

/-- The method `removeItem` returns and keeps the cart well formed. -/
theorem removeItem_wf {c : ShoppingCart} (hw : c.WellFormed) (id : Int) :
    ∃ c2, c.removeItem id = some c2 ∧ c2.WellFormed := by
  obtain ⟨hok, ps, hc⟩ := hw
  cases hf : (ps.map Prod.snd).find? (CartLine.hasId id) with
  | none => exact ⟨c, (removeItem_absent hc (absent_of_find_none hf)).1, hok, ps, hc⟩
  | some l =>
    obtain ⟨ps1, t, ps2, e, hl, hno, _⟩ := split_first ps l hf
    subst e
    obtain ⟨c2, e2, h2, hs⟩ := removeItem_found hc hl hno
    exact ⟨c2, e2, by rw [hs]; exact Stack.push_ok hok _ _ _ _, _, h2⟩

/-- The method `modifyItem` returns and keeps the cart well formed. -/
theorem modifyItem_wf {c : ShoppingCart} (hw : c.WellFormed) (id : Int) (q : Int) :
    ∃ c2, c.modifyItem id q = some c2 ∧ c2.WellFormed := by
  obtain ⟨hok, ps, hc⟩ := hw
  cases hf : (ps.map Prod.snd).find? (CartLine.hasId id) with
  | none => exact ⟨c, modifyItem_absent hc (absent_of_find_none hf) q, hok, ps, hc⟩
  | some l =>
    obtain ⟨ps1, t, ps2, e, hl, hno, _⟩ := split_first ps l hf
    subst e
    obtain ⟨c2, e2, h2, hs⟩ := modifyItem_found hc hl hno q
    exact ⟨c2, e2, by rw [hs]; exact hok, _, h2⟩

/-- The method `undo` returns and keeps the cart well formed. -/
theorem undo_wf {c : ShoppingCart} (hw : c.WellFormed) :
    ∃ c2, c.undo = some c2 ∧ c2.WellFormed := by
  unfold ShoppingCart.undo
  have hw1 : (⟨c.mem, c.head, c.undoStack.pop.2⟩ : ShoppingCart).WellFormed := by
    obtain ⟨hok, ps, hc⟩ := hw
    exact ⟨Stack.pop_ok hok, ps, holds_of_mem_head hc rfl rfl⟩
  by_cases he : c.undoStack.isEmpty = true
  · rw [if_pos he]
    exact ⟨c, rfl, hw⟩
  · rw [if_neg he]
    dsimp only
    split_ifs
    · exact removeItem_wf hw1 _
    · exact addItem_wf hw1 _ _ _ _
    · exact ⟨_, rfl, hw1⟩

/-- Every call returns and keeps the cart well formed. -/
theorem step_wf {c : ShoppingCart} (hw : c.WellFormed) (op : CartOp) :
    ∃ c2, c.step op = some c2 ∧ c2.WellFormed := by
  cases op with
  | addItem id name price qty => exact addItem_wf hw id name price qty
  | modifyItem id q => exact modifyItem_wf hw id q
  | removeItem id => exact removeItem_wf hw id
  | undo => exact undo_wf hw

/-- Every sequence of `addItem`, `modifyItem`, `removeItem` and `undo` calls on a
well-formed cart returns, and the cart it leaves is well formed. -/
theorem runCart_wf :
    ∀ (ops : List CartOp) (c : ShoppingCart), c.WellFormed →
      ∃ c2, runCart c ops = some c2 ∧ c2.WellFormed
  | [], c, hw => ⟨c, rfl, hw⟩
  | op :: ops, c, hw => by
    obtain ⟨c1, e1, h1⟩ := step_wf hw op
    obtain ⟨c2, e2, h2⟩ := runCart_wf ops c1 h1
    exact ⟨c2, by simp only [runCart, e1]; exact e2, h2⟩

/-- The new cart is well formed. -/
theorem new_wf : ShoppingCart.new.WellFormed := ⟨stack_new_ok, [], holds_new⟩

/-! ## Catalog tree: the claims -/

theorem filter_lt_gt_split {k : Int} :
    ∀ (xs : List Product), xs.Pairwise (fun a b => a.id < b.id) → k ∉ xs.map (fun x => x.id) →
      xs = xs.filter (fun x => decide (x.id < k)) ++ xs.filter (fun x => decide (k < x.id))
  | [], _, _ => rfl
  | x :: xs, hp, hk => by
    rw [List.pairwise_cons] at hp
    simp only [List.map_cons, List.mem_cons, not_or] at hk
    by_cases c : x.id < k
    · have ih := filter_lt_gt_split xs hp.2 hk.2
      have c2 : ¬ k < x.id := by omega
      simp only [List.filter_cons, c, c2, decide_True, decide_False, if_true, if_false,
        Bool.false_eq_true, List.cons_append]
      rw [← ih]
    · have c2 : k < x.id := by have := hk.1; omega
      have hR : ∀ y ∈ xs, k < y.id := fun y hy => lt_trans c2 (hp.1 y hy)
      simp [List.filter_cons, c, c2, filter_id_lt_nil hR, filter_id_gt_self hR]

theorem search_found :
    ∀ (t : Node) (k : Int), Ordered t → k ∈ ids t →
      ∃ q l r h, search t k = .node q l r h ∧ q.id = k ∧ .node q l r h ∈ nodes t := by
  intro t
  induction t with
  | nil => intro k _ hk; simp [ids, inorder] at hk
  | node q l r h ihl ihr =>
    intro k ho hk
    obtain ⟨ol, or_, hlq, hqr⟩ := ordered_node.1 ho
    simp only [ids, inorder, List.map_append, List.map_cons, List.mem_append, List.mem_cons,
      List.mem_map] at hk
    unfold search
    by_cases c0 : q.id = k
    · rw [if_pos c0]
      exact ⟨q, l, r, h, rfl, c0, by simp [nodes]⟩
    rw [if_neg c0]
    by_cases c1 : k < q.id
    · rw [if_pos c1]
      have hml : k ∈ ids l := by
        rcases hk with ⟨x, hx, e⟩ | e | ⟨x, hx, e⟩
        · exact List.mem_map.2 ⟨x, hx, e⟩
        · exact absurd e.symm c0
        · have := hqr x hx; omega
      obtain ⟨q2, l2, r2, h2, e, hq, hm⟩ := ihl k ol hml
      exact ⟨q2, l2, r2, h2, e, hq, by simp [nodes, hm]⟩
    · rw [if_neg c1]
      have hmr : k ∈ ids r := by
        rcases hk with ⟨x, hx, e⟩ | e | ⟨x, hx, e⟩
        · have := hlq x hx; omega
        · exact absurd e.symm c0
        · exact List.mem_map.2 ⟨x, hx, e⟩
      obtain ⟨q2, l2, r2, h2, e, hq, hm⟩ := ihr k or_ hmr
      exact ⟨q2, l2, r2, h2, e, hq, by simp [nodes, hm]⟩

theorem search_absent :
    ∀ (t : Node) (k : Int), k ∉ ids t → search t k = .nil := by
  intro t
  induction t with
  | nil => intro k _; rfl
  | node q l r h ihl ihr =>
    intro k hk
    simp only [ids, inorder, List.map_append, List.map_cons, List.mem_append, List.mem_cons,
      not_or] at hk
    obtain ⟨hnl, hnq, hnr⟩ := hk
    unfold search
    rw [if_neg (fun e => hnq e.symm)]
    split_ifs
    · exact ihl k hnl
    · exact ihr k hnr

theorem ids_sorted {t : Node} (ho : Ordered t) : (ids t).Pairwise (fun a b => a < b) := by
  unfold ids
  rw [List.pairwise_map]
  exact ho

/-- C1. Balance invariant, evaluated at a failing run: the inserts of the ids
1, 3, 4, 2, 5, 6 into the empty tree all return, and the tree they build has
a root whose left subtree has true height 3 and whose right subtree has true
height 1, so it is not balanced. -/
theorem insert_breaks_balance :
    applyOps .nil (insertsOf [1, 3, 4, 2, 5, 6]) = some unbalancedTree ∧
      (∃ q l r h, unbalancedTree = .node q l r h ∧ trueHeight l = 3 ∧ trueHeight r = 1) ∧
      ¬ Balanced unbalancedTree := by
  refine ⟨by decide, ⟨_, _, _, _, rfl, by decide, by decide⟩, ?_⟩
  simp [unbalancedTree, leaf, Balanced, trueHeight]

/-- C2. BST ordering: every tree obtained from the empty tree by a sequence of
`insert` and `deleteNode` calls lists the product ids in strictly ascending
order in its in-order traversal, so no id occurs twice. -/
theorem bst_ordering (ops : List TreeOp) (t : Node) (h : applyOps .nil ops = some t) :
    (ids t).Pairwise (fun a b => a < b) ∧ (ids t).Nodup := by
  have hs := ids_sorted (applyOps_ordered ops .nil t List.Pairwise.nil h)
  exact ⟨hs, hs.imp (fun hab => ne_of_lt hab)⟩

/-- A run with rotations, deletes and an insert: it returns `mixedTree`, whose
ids are 1, 2, 4, 5, 6. -/
theorem bst_ordering_witness :
    applyOps .nil mixedOps = some mixedTree ∧ ids mixedTree = [1, 2, 4, 5, 6] ∧
      (ids mixedTree).Pairwise (fun a b => a < b) ∧ (ids mixedTree).Nodup :=
  ⟨by decide, by decide, bst_ordering mixedOps mixedTree (by decide)⟩

/-- C3. Duplicate insert, evaluated at two failing runs.  After the inserts of
the ids 1, 2, 3 the tree holds id 1, and a second insert of id 1 returns a
tree whose root has the cached height 2 where the input had 4.  After the
inserts of the ids 1, 2, 3, 5, 4 the tree holds id 1 and has the root 2, and
a second insert of id 1 returns a tree of another shape, with the root 3. -/
theorem duplicate_insert_changes_tree :
    applyOps .nil (insertsOf [1, 2, 3]) = some staleTree ∧ (1 : Int) ∈ ids staleTree ∧
      height staleTree = 4 ∧
      insert staleTree (seedProduct 1) =
        some (.node (seedProduct 2) (leaf (seedProduct 1)) (leaf (seedProduct 3)) 2) ∧
      insert staleTree (seedProduct 1) ≠ some staleTree ∧
      applyOps .nil (insertsOf [1, 2, 3, 5, 4]) = some skewTree ∧ (1 : Int) ∈ ids skewTree ∧
      insert skewTree (seedProduct 1) = some reshapedTree ∧
      insert skewTree (seedProduct 1) ≠ some skewTree := by
  decide

/-- C4. Insert of a new id, evaluated at a failing run: the inserts of the ids
1, 4, 5, 2, 8, 3, 9, 6 return `faultTree`, which does not hold id 7, and the
insert of the product with id 7 into it dereferences a null pointer instead
of returning a tree. -/
theorem insert_fresh_id_faults :
    applyOps .nil (insertsOf [1, 4, 5, 2, 8, 3, 9, 6]) = some faultTree ∧
      (7 : Int) ∉ ids faultTree ∧ insert faultTree (seedProduct 7) = none := by
  decide

/-- C5. Delete of an absent id, evaluated at two failing runs.  After the
inserts of the ids 1, 2, 3 the tree does not hold id 0, and `deleteNode` for
id 0 returns a tree whose root has the cached height 2 where the input had 4.
After the inserts of the ids 1, 3, 4, 6, 5 the tree does not hold id 2, and
`deleteNode` for id 2 rotates it: the root 3 is replaced by the root 5. -/
theorem delete_absent_changes_tree :
    applyOps .nil (insertsOf [1, 2, 3]) = some staleTree ∧ (0 : Int) ∉ ids staleTree ∧
      deleteNode staleTree 0 =
        some (.node (seedProduct 2) (leaf (seedProduct 1)) (leaf (seedProduct 3)) 2) ∧
      deleteNode staleTree 0 ≠ some staleTree ∧
      applyOps .nil (insertsOf [1, 3, 4, 6, 5]) = some leanTree ∧ (2 : Int) ∉ ids leanTree ∧
      deleteNode leanTree 2 = some rotatedTree ∧
      deleteNode leanTree 2 ≠ some leanTree := by
  decide

/-- C6. Lookup is exact: in a tree whose in-order traversal is strictly ascending,
`search(t, k)` returns a node of `t` whose product id is `k` when `k` occurs
in `t`, and the null pointer when it does not. -/
theorem search_exact (t : Node) (ho : Ordered t) (k : Int) :
    (k ∈ ids t →
      ∃ q l r h, search t k = .node q l r h ∧ q.id = k ∧ .node q l r h ∈ nodes t) ∧
    (k ∉ ids t → search t k = .nil) :=
  ⟨search_found t k ho, search_absent t k⟩

/-- Looking up id 7 in the seed catalog. -/
theorem search_exact_witness :
    Ordered seedTree ∧
      ((7 : Int) ∈ ids seedTree →
        ∃ q l r h, search seedTree 7 = .node q l r h ∧ q.id = 7 ∧
          .node q l r h ∈ nodes seedTree) ∧
      ((7 : Int) ∉ ids seedTree → search seedTree 7 = .nil) :=
  ⟨by unfold Ordered; decide, search_exact seedTree (by unfold Ordered; decide) 7⟩

/-! ## Shopping cart: the claims -/

theorem laptopCart_wf : laptopCart.WellFormed := by
  refine ⟨⟨by decide, by decide, by decide⟩, [(0, ⟨1, "Laptop", 99999, 2⟩)], by simp, ?_⟩
  exact ⟨rfl, ⟨1, "Laptop", 99999, 2, none, none⟩, rfl, rfl, rfl, rfl⟩

theorem eraseP_append_fresh {id : Int} (ls : List CartLine) (l : CartLine)
    (hl : l.productId = id) (hn : ls.find? (CartLine.hasId id) = none) :
    (ls ++ [l]).eraseP (CartLine.hasId id) = ls := by
  rw [List.find?_eq_none] at hn
  rw [List.eraseP_append_right _ (fun x hx => hn x hx)]
  simp [List.eraseP_cons_of_pos, CartLine.hasId, hl]

theorem find_append_new {id : Int} (ls : List CartLine) (l : CartLine)
    (hl : l.productId = id) :
    ∃ l2, (ls ++ [l]).find? (CartLine.hasId id) = some l2 := by
  cases h : (ls ++ [l]).find? (CartLine.hasId id) with
  | some l2 => exact ⟨l2, rfl⟩
  | none =>
    rw [List.find?_eq_none] at h
    have := h l (by simp)
    simp [CartLine.hasId, hl] at this

/-- What `addItem` followed by `undo` does to the lines of a cart whose log is
not full: the new line is appended and then the first line with the same id,
counted from the head, is removed. -/
theorem addItem_undo_lines (c : ShoppingCart) (hw : c.WellFormed) (ls : List CartLine)
    (hd : c.displayCart = some ls) (hlog : c.undoStack.records.length < 100)
    (id : Int) (name : String) (price : Price) (qty : Int) :
    ∃ c1 c2, c.addItem id name price qty = some c1 ∧ c1.undo = some c2 ∧
      c2.displayCart =
        some ((ls ++ [(⟨id, name, price, qty⟩ : CartLine)]).eraseP (CartLine.hasId id)) := by
  obtain ⟨hok, ps, hc⟩ := hw
  rw [holds_display hc] at hd
  cases hd
  obtain ⟨c1, e1, h1, hs1⟩ := addItem_spec hc id name price qty
  have htop : c.undoStack.top < 99 := by
    have := Stack.records_length hok
    omega
  obtain ⟨p1, p2, _, _, _⟩ := Stack.pop_push hok htop "add" id name qty
  rw [← hs1] at p1 p2
  have h1b : (⟨c1.mem, c1.head, c1.undoStack.pop.2⟩ : ShoppingCart).Holds
      (ps ++ [(c.mem.length, ⟨id, name, price, qty⟩)]) := holds_of_mem_head h1 rfl rfl
  obtain ⟨l2, hf⟩ := find_append_new (ps.map Prod.snd) ⟨id, name, price, qty⟩ rfl
  have hf2 : ((ps ++ [(c.mem.length, (⟨id, name, price, qty⟩ : CartLine))]).map
      Prod.snd).find? (CartLine.hasId id) = some l2 := by
    rw [List.map_append]; exact hf
  obtain ⟨ps1, t, ps2, e, hl, hno, he⟩ := split_first _ l2 hf2
  rw [e] at h1b
  obtain ⟨c2, e2, h2, _⟩ := removeItem_found h1b hl hno
  refine ⟨c1, c2, e1, ?_, ?_⟩
  · unfold ShoppingCart.undo
    rw [p1]
    simp only [Bool.false_eq_true, if_false, p2]
    rw [if_pos trivial]
    exact e2
  · rw [holds_display h2, ← he, List.map_append]
    rfl

/-- C7 (what the code does). The cart holds one line for product 5 with quantity 1;
`addItem(5, "Mouse", 29.99, 3)` followed by `undo()` removes that older line
and keeps the line just added, so the cart is not as it was before the add. -/
theorem undo_add_removes_oldest_duplicate :
    (runCart ShoppingCart.new [.addItem 5 "Mouse" 2999 1]).bind ShoppingCart.displayCart =
      some [⟨5, "Mouse", 2999, 1⟩] ∧
    (runCart ShoppingCart.new
        [.addItem 5 "Mouse" 2999 1, .addItem 5 "Mouse" 2999 3, .undo]).bind
      ShoppingCart.displayCart = some [⟨5, "Mouse", 2999, 3⟩] := by
  decide

/-- When the cart holds no line with the id added, `addItem` followed by
`undo` leaves the lines as they were. -/
theorem addItem_undo_fresh_id (c : ShoppingCart) (hw : c.WellFormed) (ls : List CartLine)
    (hd : c.displayCart = some ls) (hlog : c.undoStack.records.length < 100)
    (id : Int) (name : String) (price : Price) (qty : Int)
    (hfresh : ls.find? (CartLine.hasId id) = none) :
    ∃ c1 c2, c.addItem id name price qty = some c1 ∧ c1.undo = some c2 ∧
      c2.displayCart = some ls := by
  obtain ⟨c1, c2, e1, e2, e3⟩ := addItem_undo_lines c hw ls hd hlog id name price qty
  exact ⟨c1, c2, e1, e2, by rw [e3, eraseP_append_fresh ls ⟨id, name, price, qty⟩ rfl hfresh]⟩

/-- C8. Undo of Remove restores a line with price zero: in a well-formed cart that
shows the lines `ls`, has a line with product id `id` (the first one being `l`)
and holds fewer than 100 log records, `removeItem(id)` followed by `undo()`
yields the lines of `ls` without the first line of that id, followed by one
last line with the id, name and quantity of `l` and price 0. -/
theorem undo_remove_restores_price_zero (c : ShoppingCart) (hw : c.WellFormed)
    (ls : List CartLine) (hd : c.displayCart = some ls) (id : Int) (l : CartLine)
    (hf : ls.find? (CartLine.hasId id) = some l) (hlog : c.undoStack.records.length < 100) :
    ∃ c1 c2, c.removeItem id = some c1 ∧ c1.undo = some c2 ∧
      c2.displayCart =
        some (ls.eraseP (CartLine.hasId id) ++ [⟨l.productId, l.productName, 0, l.quantity⟩]) := by
  obtain ⟨hok, ps, hc⟩ := hw
  rw [holds_display hc] at hd
  cases hd
  obtain ⟨ps1, t, ps2, e, hl, hno, he⟩ := split_first ps l hf
  subst e
  obtain ⟨c1, e1, h1, hs1⟩ := removeItem_found hc hl hno
  have htop : c.undoStack.top < 99 := by
    have := Stack.records_length hok
    omega
  obtain ⟨p1, p2, _, _, _⟩ := Stack.pop_push hok htop "remove" l.productId l.productName l.quantity
  rw [← hs1] at p1 p2
  have h1b : (⟨c1.mem, c1.head, c1.undoStack.pop.2⟩ : ShoppingCart).Holds (ps1 ++ ps2) :=
    holds_of_mem_head h1 rfl rfl
  obtain ⟨c2, e2, h2, _⟩ := addItem_spec h1b l.productId l.productName 0 l.quantity
  refine ⟨c1, c2, e1, ?_, ?_⟩
  · unfold ShoppingCart.undo
    rw [p1]
    simp only [Bool.false_eq_true, if_false, p2]
    rw [if_pos trivial]
    exact e2
  · rw [holds_display h2, he]
    simp

/-- The cart with the single line 1, "Laptop", 999.99, 2 ends as the single line
1, "Laptop", 0.0, 2. -/
theorem undo_remove_restores_price_zero_witness :
    laptopCart.WellFormed ∧
      laptopCart.displayCart = some [⟨1, "Laptop", 99999, 2⟩] ∧
      [(⟨1, "Laptop", 99999, 2⟩ : CartLine)].find? (CartLine.hasId 1) =
        some ⟨1, "Laptop", 99999, 2⟩ ∧
      laptopCart.undoStack.records.length < 100 ∧
      ∃ c1 c2, laptopCart.removeItem 1 = some c1 ∧ c1.undo = some c2 ∧
        c2.displayCart = some [⟨1, "Laptop", 0, 2⟩] :=
  ⟨laptopCart_wf, by decide, by decide, by decide,
    undo_remove_restores_price_zero laptopCart laptopCart_wf [⟨1, "Laptop", 99999, 2⟩]
      (by decide) 1 ⟨1, "Laptop", 99999, 2⟩ (by decide) (by decide)⟩

/-- C9. Cart linkage and count: after any finite sequence of `addItem` and
`removeItem` calls on a new cart the calls all return and the cart is well
formed; `head` has no predecessor; for every node of the list, the node its
`next` points to has its `prev` pointing back, and the node its `prev` points
to has its `next` pointing back; and the number of lines is the number of
`addItem` calls minus the number of `removeItem` calls that found a line. -/
theorem cart_linkage_and_count (ops : List CartOp) (h : ∀ op ∈ ops, op.isAddOrRemove = true) :
    ∃ c as ls, runCart ShoppingCart.new ops = some c ∧ c.WellFormed ∧
      c.addrs = some as ∧ c.displayCart = some ls ∧ ls.length = as.length ∧
      (∀ a n, c.head = some a → c.mem.read a = some n → n.prev = none) ∧
      (∀ a ∈ as, ∃ n, c.mem.read a = some n ∧
        (∀ b, n.next = some b → ∃ nb, c.mem.read b = some nb ∧ nb.prev = some a) ∧
        (∀ b, n.prev = some b → ∃ nb, c.mem.read b = some nb ∧ nb.next = some a)) ∧
      ls.length + removedCount ShoppingCart.new ops = addCount ops := by
  obtain ⟨c, ps, e, hok, hc, hcount⟩ := run_add_remove ops _ [] stack_new_ok holds_new h
  refine ⟨c, ps.map Prod.fst, ps.map Prod.snd, e, ⟨hok, ps, hc⟩, holds_addrs hc,
    holds_display hc, by simp, ?_, ?_, ?_⟩
  · intro a n ha hn
    have hs := hc.2
    rw [ha] at hs
    cases ps with
    | nil => cases hs
    | cons x xs =>
      obtain ⟨b, l⟩ := x
      obtain ⟨hb, n2, hr2, _, hp2, _⟩ := hs
      cases hb
      rw [hn] at hr2
      cases hr2
      exact hp2
  · intro a ha
    obtain ⟨n, hn, h1⟩ := seg_next_link ps _ _ hc.2 a ha
    obtain ⟨n2, hn2, h2⟩ := seg_prev_link ps _ _ hc.2 (by simp) a ha
    rw [hn] at hn2
    cases hn2
    exact ⟨n, hn, h1, h2⟩
  · simpa using hcount

/-- Two adds, a remove that finds its line and a remove that does not. -/
theorem cart_linkage_and_count_witness :
    (∀ op ∈ [CartOp.addItem 1 "Laptop" 99999 2, CartOp.addItem 5 "Mouse" 2999 1,
        CartOp.removeItem 1, CartOp.removeItem 7], op.isAddOrRemove = true) ∧
      ∃ c as ls,
        runCart ShoppingCart.new [CartOp.addItem 1 "Laptop" 99999 2,
          CartOp.addItem 5 "Mouse" 2999 1, CartOp.removeItem 1, CartOp.removeItem 7] = some c ∧
        c.WellFormed ∧ c.addrs = some as ∧ c.displayCart = some ls ∧ ls.length = as.length ∧
        (∀ a n, c.head = some a → c.mem.read a = some n → n.prev = none) ∧
        (∀ a ∈ as, ∃ n, c.mem.read a = some n ∧
          (∀ b, n.next = some b → ∃ nb, c.mem.read b = some nb ∧ nb.prev = some a) ∧
          (∀ b, n.prev = some b → ∃ nb, c.mem.read b = some nb ∧ nb.next = some a)) ∧
        ls.length + removedCount ShoppingCart.new [CartOp.addItem 1 "Laptop" 99999 2,
          CartOp.addItem 5 "Mouse" 2999 1, CartOp.removeItem 1, CartOp.removeItem 7] =
          addCount [CartOp.addItem 1 "Laptop" 99999 2, CartOp.addItem 5 "Mouse" 2999 1,
            CartOp.removeItem 1, CartOp.removeItem 7] :=
  ⟨by decide, cart_linkage_and_count _ (by decide)⟩

/-- C10. `removeItem` removes the first match and logs it: in a well-formed cart
that shows the lines `ls`, if `l` is the first line with product id `id` then
`removeItem(id)` leaves the lines of `ls` without that first match, every
other line unchanged and in order, and, when the log holds fewer than 100
records, appends the record "remove", `id`, name of `l`, quantity of `l` on
top of the log; if no line has product id `id` the cart is returned as it was,
lines and log included. -/
theorem removeItem_first_match (c : ShoppingCart) (hw : c.WellFormed) (ls : List CartLine)
    (hd : c.displayCart = some ls) (id : Int) :
    (∀ l, ls.find? (CartLine.hasId id) = some l →
      ∃ c2, c.removeItem id = some c2 ∧
        c2.displayCart = some (ls.eraseP (CartLine.hasId id)) ∧
        (c.undoStack.records.length < 100 →
          c2.undoStack.records =
            c.undoStack.records ++ [⟨"remove", id, l.productName, l.quantity⟩])) ∧
    (ls.find? (CartLine.hasId id) = none → c.removeItem id = some c) := by
  obtain ⟨hok, ps, hc⟩ := hw
  rw [holds_display hc] at hd
  cases hd
  constructor
  · intro l hf
    obtain ⟨ps1, t, ps2, e, hl, hno, he⟩ := split_first ps l hf
    subst e
    obtain ⟨c2, e2, h2, hs2⟩ := removeItem_found hc hl hno
    refine ⟨c2, e2, by rw [holds_display h2, he], ?_⟩
    intro hlen
    have htop : c.undoStack.top < 99 := by
      have := Stack.records_length hok
      omega
    rw [hs2, (Stack.records_push hok htop _ _ _ _).1, hl]
  · intro hf
    exact (removeItem_absent hc (absent_of_find_none hf)).1

/-- The cart with the single line 1, "Laptop", 999.99, 2: `removeItem(1)` empties
it and leaves the record "remove", 1, "Laptop", 2 on top of the log. -/
theorem removeItem_first_match_witness :
    laptopCart.WellFormed ∧ laptopCart.displayCart = some [⟨1, "Laptop", 99999, 2⟩] ∧
      ∃ c2, laptopCart.removeItem 1 = some c2 ∧ c2.displayCart = some [] ∧
        c2.undoStack.records = [⟨"add", 1, "Laptop", 2⟩, ⟨"remove", 1, "Laptop", 2⟩] := by
  refine ⟨laptopCart_wf, by decide, ?_⟩
  obtain ⟨c2, e, hd, hr⟩ :=
    (removeItem_first_match laptopCart laptopCart_wf [⟨1, "Laptop", 99999, 2⟩]
      (by decide) 1).1 ⟨1, "Laptop", 99999, 2⟩ (by decide)
  exact ⟨c2, e, hd, hr (by decide)⟩

/-! ## Cart operations and undo stack: further claims -/

/-- C11. `addItem` appends and logs: in a well-formed cart that shows the lines
`ls`, `addItem(id, name, price, qty)` returns a cart that shows `ls`,
unchanged, followed by the one new line, whatever ids `ls` holds; and when
the log holds fewer than 100 records the record "add", `id`, `name`, `qty`
is appended on top of it. -/
theorem addItem_appends_and_logs (c : ShoppingCart) (hw : c.WellFormed) (ls : List CartLine)
    (hd : c.displayCart = some ls) (id : Int) (name : String) (price : Price) (qty : Int) :
    ∃ c2, c.addItem id name price qty = some c2 ∧
      c2.displayCart = some (ls ++ [⟨id, name, price, qty⟩]) ∧
      (c.undoStack.records.length < 100 →
        c2.undoStack.records = c.undoStack.records ++ [⟨"add", id, name, qty⟩]) := by
  obtain ⟨hok, ps, hc⟩ := hw
  rw [holds_display hc] at hd
  cases hd
  obtain ⟨c2, e, h2, hs⟩ := addItem_spec hc id name price qty
  refine ⟨c2, e, by rw [holds_display h2]; simp, ?_⟩
  intro hlen
  have htop : c.undoStack.top < 99 := by
    have := Stack.records_length hok
    omega
  rw [hs, (Stack.records_push hok htop _ _ _ _).1]

/-- Adding product 1 again to the cart that already holds a line for product 1. -/
theorem addItem_appends_and_logs_witness :
    laptopCart.WellFormed ∧ laptopCart.displayCart = some [⟨1, "Laptop", 99999, 2⟩] ∧
      ∃ c2, laptopCart.addItem 1 "Laptop" 99999 5 = some c2 ∧
        c2.displayCart = some [⟨1, "Laptop", 99999, 2⟩, ⟨1, "Laptop", 99999, 5⟩] ∧
        c2.undoStack.records = [⟨"add", 1, "Laptop", 2⟩, ⟨"add", 1, "Laptop", 5⟩] := by
  refine ⟨laptopCart_wf, by decide, ?_⟩
  obtain ⟨c2, e, hd, hr⟩ :=
    addItem_appends_and_logs laptopCart laptopCart_wf [⟨1, "Laptop", 99999, 2⟩] (by decide)
      1 "Laptop" 99999 5
  exact ⟨c2, e, hd, hr (by decide)⟩

/-- C13. Stack bounds: on a stack that holds 100 records `push` changes nothing;
on the empty stack `pop` returns the sentinel record and leaves the stack as
it is; on a stack that holds fewer than 100 records, `push` followed by `pop`
returns the record pushed and leaves the records and the index `top` that
were there before. -/
theorem stack_bounds (s : Stack) (hok : s.OK) (t : String) (i : Int) (n : String) (q : Int) :
    (s.records.length = 100 → s.push t i n q = s) ∧
    (s.records.length = 0 →
      s.pop.1 = ⟨"", -1, "", -1⟩ ∧ s.pop.2 = s ∧ s.pop.2.isEmpty = true) ∧
    (s.records.length < 100 →
      (s.push t i n q).pop.1 = ⟨t, i, n, q⟩ ∧
      (s.push t i n q).pop.2.records = s.records ∧
      (s.push t i n q).pop.2.top = s.top ∧
      (s.push t i n q).records = s.records ++ [⟨t, i, n, q⟩]) := by
  have hl := Stack.records_length hok
  refine ⟨?_, ?_, ?_⟩
  · intro h
    exact Stack.push_full (by omega) t i n q
  · intro h
    have ht : s.top = -1 := by omega
    unfold Stack.pop Stack.isEmpty
    rw [if_pos ht]
    exact ⟨rfl, rfl, by simp [ht]⟩
  · intro h
    have ht : s.top < 99 := by omega
    obtain ⟨_, p2, p3, _, p5⟩ := Stack.pop_push hok ht t i n q
    exact ⟨p2, p3, p5, (Stack.records_push hok ht t i n q).1⟩

/-- The new stack: `pop` gives the sentinel, and a `push` followed by `pop`
gives back the record pushed and the empty stack. -/
theorem stack_bounds_witness :
    Stack.new.OK ∧ Stack.new.pop.1 = ⟨"", -1, "", -1⟩ ∧
      (Stack.new.push "add" 1 "Laptop" 2).pop.1 = ⟨"add", 1, "Laptop", 2⟩ ∧
      (Stack.new.push "add" 1 "Laptop" 2).pop.2.records = [] := by
  have h := stack_bounds Stack.new stack_new_ok "add" 1 "Laptop" 2
  exact ⟨stack_new_ok, (h.2.1 (by decide)).1, (h.2.2 (by decide)).1, (h.2.2 (by decide)).2.1⟩

/-- The lines after `modifyItem`, in terms of the nodes of the cart. -/
theorem setFirstQty_split {id : Int} (q : Int) :
    ∀ (ps1 : List (Nat × CartLine)) (t : Nat) (l : CartLine) (ps2 : List (Nat × CartLine)),
      l.productId = id → (∀ x ∈ ps1, x.2.productId ≠ id) →
        setFirstQty id q ((ps1 ++ (t, l) :: ps2).map Prod.snd) =
          (ps1 ++ (t, ⟨l.productId, l.productName, l.price, q⟩) :: ps2).map Prod.snd
  | [], t, l, ps2, hl, _ => by simp [setFirstQty, hl]
  | x :: xs, t, l, ps2, hl, hno => by
    have hx : x.2.productId ≠ id := hno x (by simp)
    have ih := setFirstQty_split q xs t l ps2 hl (fun y hy => hno y (by simp [hy]))
    rw [List.cons_append, List.map_cons, setFirstQty, if_neg hx, ih]
    rfl

/-- What `undo` can do to the lines of a well-formed cart: leave them as they
are, remove one line, or append one line. -/
theorem undo_lines {c : ShoppingCart} (hw : c.WellFormed) {ls : List CartLine}
    (hd : c.displayCart = some ls) :
    ∃ c3 ls3, c.undo = some c3 ∧ c3.displayCart = some ls3 ∧
      (ls3 = ls ∨ ls3.length + 1 = ls.length ∨ ls3.length = ls.length + 1) := by
  obtain ⟨hok, ps, hc⟩ := hw
  rw [holds_display hc] at hd
  cases hd
  have hc1 : (⟨c.mem, c.head, c.undoStack.pop.2⟩ : ShoppingCart).Holds ps :=
    holds_of_mem_head hc rfl rfl
  unfold ShoppingCart.undo
  by_cases he : c.undoStack.isEmpty = true
  · rw [if_pos he]
    exact ⟨c, _, rfl, holds_display hc, Or.inl rfl⟩
  · rw [if_neg he]
    dsimp only
    split_ifs
    · cases hf : (ps.map Prod.snd).find? (CartLine.hasId c.undoStack.pop.1.productId) with
      | none =>
        refine ⟨_, _, (removeItem_absent hc1 (absent_of_find_none hf)).1, holds_display hc1,
          Or.inl rfl⟩
      | some l =>
        obtain ⟨ps1, t, ps2, e, hl, hno, _⟩ := split_first ps l hf
        subst e
        obtain ⟨c2, e2, h2, _⟩ := removeItem_found hc1 hl hno
        exact ⟨c2, _, e2, holds_display h2, Or.inr (Or.inl (by simp; omega))⟩
    · obtain ⟨c2, e2, h2, _⟩ := addItem_spec hc1 c.undoStack.pop.1.productId
        c.undoStack.pop.1.productName 0 c.undoStack.pop.1.quantity
      exact ⟨c2, _, e2, holds_display h2, Or.inr (Or.inr (by simp))⟩
    · exact ⟨_, _, rfl, holds_display hc1, Or.inl rfl⟩

/-- C12. `modifyItem` changes one quantity and nothing else: in a well-formed cart
that shows the lines `ls`, if `l` is the first line with product id `id` then
`modifyItem(id, newQty)` returns a cart that shows `ls` with the quantity of
that first line set to `newQty`, every other field and line and the order
unchanged, and with the undo stack exactly as it was; when the quantity
really changed, a following `undo()` returns and does not bring back the
lines `ls`.  If no line has product id `id` the cart is returned as it was,
lines and log included. -/
theorem modifyItem_changes_one_quantity (c : ShoppingCart) (hw : c.WellFormed)
    (ls : List CartLine) (hd : c.displayCart = some ls) (id : Int) (newQty : Int) :
    (∀ l, ls.find? (CartLine.hasId id) = some l →
      ∃ c2, c.modifyItem id newQty = some c2 ∧
        c2.displayCart = some (setFirstQty id newQty ls) ∧
        c2.undoStack = c.undoStack ∧
        (l.quantity ≠ newQty →
          ∃ c3 ls3, c2.undo = some c3 ∧ c3.displayCart = some ls3 ∧ ls3 ≠ ls)) ∧
    (ls.find? (CartLine.hasId id) = none → c.modifyItem id newQty = some c) := by
  obtain ⟨hok, ps, hc⟩ := hw
  rw [holds_display hc] at hd
  cases hd
  constructor
  · intro l hf
    obtain ⟨ps1, t, ps2, e, hl, hno, _⟩ := split_first ps l hf
    subst e
    obtain ⟨c2, e2, h2, hs⟩ := modifyItem_found hc hl hno newQty
    have hd2 := holds_display h2
    rw [← setFirstQty_split newQty ps1 t l ps2 hl hno] at hd2
    refine ⟨c2, e2, hd2, hs, ?_⟩
    intro hq
    have hw2 : c2.WellFormed := ⟨by rw [hs]; exact hok, _, h2⟩
    obtain ⟨c3, ls3, e3, hd3, hcases⟩ := undo_lines hw2 hd2
    refine ⟨c3, ls3, e3, hd3, ?_⟩
    intro hcontra
    rw [setFirstQty_split newQty ps1 t l ps2 hl hno] at hcases
    rw [hcontra] at hcases
    rcases hcases with h | h | h
    · simp only [List.map_append, List.map_cons] at h
      have h3 := (List.append_inj h rfl).2
      simp only [List.cons.injEq] at h3
      have h4 := h3.1
      rw [h4] at hq
      exact hq rfl
    · simp at h
    · simp at h
  · intro hf
    exact modifyItem_absent hc (absent_of_find_none hf) newQty

/-- The cart with the single line 1, "Laptop", 999.99, 2: `modifyItem(1, 7)` sets the
quantity to 7 and leaves the log with its one "add" record. -/
theorem modifyItem_changes_one_quantity_witness :
    laptopCart.WellFormed ∧ laptopCart.displayCart = some [⟨1, "Laptop", 99999, 2⟩] ∧
      ∃ c2, laptopCart.modifyItem 1 7 = some c2 ∧
        c2.displayCart = some [⟨1, "Laptop", 99999, 7⟩] ∧
        c2.undoStack = laptopCart.undoStack := by
  refine ⟨laptopCart_wf, by decide, ?_⟩
  obtain ⟨c2, e, hd, hs, _⟩ :=
    (modifyItem_changes_one_quantity laptopCart laptopCart_wf [⟨1, "Laptop", 99999, 2⟩]
      (by decide) 1 7).1 ⟨1, "Laptop", 99999, 2⟩ (by decide)
  exact ⟨c2, e, hd, hs⟩

set_option maxRecDepth 1000000 in
/-- Fifty rounds of `addItem` and `removeItem` on a new cart give `fullLogCart`. -/
theorem fullLog_run : runCart ShoppingCart.new fullLogOps = some fullLogCart := by decide

/-- The cart `fullLogCart` is well formed. -/
theorem fullLogCart_wf : fullLogCart.WellFormed := by
  obtain ⟨c, e, h⟩ := runCart_wf fullLogOps ShoppingCart.new new_wf
  rw [fullLog_run] at e
  cases e
  exact h

set_option maxRecDepth 1000000 in
/-- C14 (counterexample). The cart `fullLogCart`, reached by fifty rounds of
`addItem` and `removeItem`, holds 100 log records and no line.
`addItem(1, "Laptop", 999.99, 1)` on it hits the overflow and still appends
the line; on the cart so obtained, whose log is still full, `removeItem(1)`
hits the overflow and still removes the line. -/
theorem full_log_mutations_change_lines :
    fullLogCart.undoStack.records.length = 100 ∧
    fullLogCart.displayCart = some [] ∧
    (fullLogCart.addItem 1 "Laptop" 99999 1).bind ShoppingCart.displayCart =
      some [⟨1, "Laptop", 99999, 1⟩] ∧
    (fullLogCart.addItem 1 "Laptop" 99999 1).map (fun c => c.undoStack.records.length) =
      some 100 ∧
    ((fullLogCart.addItem 1 "Laptop" 99999 1).bind (fun c => c.removeItem 1)).bind
      ShoppingCart.displayCart = some [] := by
  decide

/-- C14 (amended). In a well-formed cart whose log holds 100 records, `addItem`
and `removeItem` of an id present in the cart return, leave the undo stack
exactly as it was and the cart well formed, and change the lines as they do
when the log has room: `addItem` appends the new line and `removeItem`
removes the first line with the id. -/
theorem full_log_keeps_log_only (c : ShoppingCart) (hw : c.WellFormed) (ls : List CartLine)
    (hd : c.displayCart = some ls) (hfull : c.undoStack.records.length = 100) :
    (∀ (id : Int) (name : String) (price : Price) (qty : Int),
      ∃ c2, c.addItem id name price qty = some c2 ∧ c2.undoStack = c.undoStack ∧
        c2.displayCart = some (ls ++ [⟨id, name, price, qty⟩]) ∧ c2.WellFormed) ∧
    (∀ (id : Int) (l : CartLine), ls.find? (CartLine.hasId id) = some l →
      ∃ c2, c.removeItem id = some c2 ∧ c2.undoStack = c.undoStack ∧
        c2.displayCart = some (ls.eraseP (CartLine.hasId id)) ∧ c2.WellFormed) := by
  obtain ⟨hok, ps, hc⟩ := hw
  rw [holds_display hc] at hd
  cases hd
  have htop : ¬ c.undoStack.top < 99 := by
    have := Stack.records_length hok
    omega
  constructor
  · intro id name price qty
    obtain ⟨c2, e, h2, hs⟩ := addItem_spec hc id name price qty
    rw [Stack.push_full htop] at hs
    exact ⟨c2, e, hs, by rw [holds_display h2]; simp, by rw [← hs] at hok; exact hok, _, h2⟩
  · intro id l hf
    obtain ⟨ps1, t, ps2, e, hl, hno, he⟩ := split_first ps l hf
    subst e
    obtain ⟨c2, e2, h2, hs⟩ := removeItem_found hc hl hno
    rw [Stack.push_full htop] at hs
    exact ⟨c2, e2, hs, by rw [holds_display h2, he], by rw [← hs] at hok; exact hok, _, h2⟩

/-- On `fullLogCart` an `addItem` keeps the 100 records and appends its line. -/
theorem full_log_keeps_log_only_witness :
    fullLogCart.WellFormed ∧ fullLogCart.displayCart = some [] ∧
      fullLogCart.undoStack.records.length = 100 ∧
      ∃ c2, fullLogCart.addItem 1 "Laptop" 99999 1 = some c2 ∧
        c2.undoStack = fullLogCart.undoStack ∧
        c2.displayCart = some [⟨1, "Laptop", 99999, 1⟩] ∧ c2.WellFormed :=
  ⟨fullLogCart_wf, by decide, by decide,
    (full_log_keeps_log_only fullLogCart fullLogCart_wf [] (by decide) (by decide)).1
      1 "Laptop" 99999 1⟩


/-! ## Undo and the log -/

/-- On a stack that is not empty `pop` returns the last record and leaves the
records before it. -/
theorem Stack.pop_records {s : Stack} (h : s.OK) (hne : s.isEmpty = false) :
    s.records = s.pop.2.records ++ [s.pop.1] ∧ s.pop.2.OK ∧ s.pop.2.top < 99 := by
  obtain ⟨h0, h1, h3⟩ := h
  have ht : ¬ s.top = -1 := by simpa [Stack.isEmpty] using hne
  unfold Stack.pop Stack.records
  rw [if_neg ht]
  simp only
  refine ⟨?_, ⟨h0, by simp only; omega, by simp only; omega⟩, by omega⟩
  have e1 : (s.top + 1).toNat = s.top.toNat + 1 := by omega
  have e2 : (s.top - 1 + 1).toNat = s.top.toNat := by omega
  have hlt : s.top.toNat < s.actions.length := by omega
  rw [e1, e2, List.take_succ, List.getD_eq_getElem?_getD, List.getElem?_eq_getElem hlt]
  rfl

/-- The last element of a list that ends with `a`. -/
theorem getLast_snoc {α : Type} (l : List α) (a : α) : (l ++ [a]).getLast? = some a := by
  simp

/-- Some line has the id exactly when the search for the first such line finds one. -/
theorem find_some_of_mem {id : Int} {ps : List (Nat × CartLine)} {x : Nat × CartLine}
    (hx : x ∈ ps) (hid : x.2.productId = id) :
    ∃ l, (ps.map Prod.snd).find? (CartLine.hasId id) = some l := by
  cases hf : (ps.map Prod.snd).find? (CartLine.hasId id) with
  | some l => exact ⟨l, rfl⟩
  | none => exact absurd hid (absent_of_find_none hf x hx)

/-- The log invariant read on the nodes of the cart. -/
theorem logSound_present {c : ShoppingCart} {ps : List (Nat × CartLine)} (hc : c.Holds ps)
    (hs : c.LogSound) {r : Action} (hr : c.undoStack.records.getLast? = some r)
    (ha : r.actionType = "add") : ∃ x ∈ ps, x.2.productId = r.productId := by
  obtain ⟨ls, l, hd, hl, hid⟩ := hs.2 r hr ha
  rw [holds_display hc] at hd
  cases hd
  obtain ⟨x, hx, rfl⟩ := List.mem_map.1 hl
  exact ⟨x, hx, hid⟩

/-- The log invariant established from the nodes of the cart. -/
theorem logSound_intro {c : ShoppingCart} {ps : List (Nat × CartLine)} (hc : c.Holds ps)
    (h1 : ∀ r ∈ c.undoStack.records, r.actionType = "add" ∨ r.actionType = "remove")
    (h2 : ∀ r, c.undoStack.records.getLast? = some r → r.actionType = "add" →
      ∃ x ∈ ps, x.2.productId = r.productId) : c.LogSound := by
  refine ⟨h1, ?_⟩
  intro r hr ha
  obtain ⟨x, hx, hid⟩ := h2 r hr ha
  exact ⟨_, x.2, holds_display hc, List.mem_map.2 ⟨x, hx, rfl⟩, hid⟩

/-- On a cart that satisfies the log invariant, `undo` with a log that is not
empty pops the top record and pushes one of the other kind for the same
product id; the invariants are kept. -/
theorem undo_replaces_top {c : ShoppingCart} (hok : c.undoStack.OK)
    {ps : List (Nat × CartLine)} (hc : c.Holds ps) (hs : c.LogSound)
    (hne : c.undoStack.isEmpty = false) :
    ∃ c2 init r r2, c.undo = some c2 ∧ c.undoStack.records = init ++ [r] ∧
      c2.undoStack.records = init ++ [r2] ∧ r2.productId = r.productId ∧
      ((r.actionType = "add" ∧ r2.actionType = "remove") ∨
        (r.actionType = "remove" ∧ r2.actionType = "add")) ∧
      c2.undoStack.OK ∧ (∃ ps2, c2.Holds ps2) ∧ c2.LogSound := by
  obtain ⟨hrec, hok1, htop1⟩ := Stack.pop_records hok hne
  have hc1 : (⟨c.mem, c.head, c.undoStack.pop.2⟩ : ShoppingCart).Holds ps :=
    holds_of_mem_head hc rfl rfl
  have hlast : c.undoStack.records.getLast? = some c.undoStack.pop.1 := by
    rw [hrec]; exact getLast_snoc _ _
  have htypes : ∀ r ∈ c.undoStack.pop.2.records,
      r.actionType = "add" ∨ r.actionType = "remove" := fun r hr =>
    hs.1 r (by rw [hrec]; exact List.mem_append_left _ hr)
  have hne2 : ¬ c.undoStack.isEmpty = true := by rw [hne]; simp
  unfold ShoppingCart.undo
  rw [if_neg hne2]
  dsimp only
  by_cases ha : c.undoStack.pop.1.actionType = "add"
  · rw [if_pos ha]
    obtain ⟨x, hx, hid⟩ := logSound_present hc hs hlast ha
    obtain ⟨l, hf⟩ := find_some_of_mem hx hid
    obtain ⟨ps1, t, ps2, e, hl, hno, _⟩ := split_first ps l hf
    subst e
    obtain ⟨c2, e2, h2, hst⟩ := removeItem_found hc1 hl hno
    have hpush := Stack.records_push hok1 htop1 "remove" l.productId l.productName l.quantity
    have hrec2 : c2.undoStack.records =
        c.undoStack.pop.2.records ++ [⟨"remove", l.productId, l.productName, l.quantity⟩] := by
      rw [hst]; exact hpush.1
    refine ⟨c2, _, _, _, e2, hrec, hrec2, hl, Or.inl ⟨ha, rfl⟩, by rw [hst]; exact hpush.2,
      ⟨_, h2⟩, ?_⟩
    refine logSound_intro h2 ?_ ?_
    · intro r hr
      rw [hrec2] at hr
      rcases List.mem_append.1 hr with hr | hr
      · exact htypes r hr
      · simp only [List.mem_singleton] at hr
        rw [hr]; exact Or.inr rfl
    · intro r hr har
      rw [hrec2, getLast_snoc] at hr
      cases hr
      simp at har
  · rw [if_neg ha]
    have hrm : c.undoStack.pop.1.actionType = "remove" := by
      rcases hs.1 c.undoStack.pop.1 (by rw [hrec]; simp) with h | h
      · exact absurd h ha
      · exact h
    rw [if_pos hrm]
    obtain ⟨c2, e2, h2, hst⟩ := addItem_spec hc1 c.undoStack.pop.1.productId
      c.undoStack.pop.1.productName 0 c.undoStack.pop.1.quantity
    have hpush := Stack.records_push hok1 htop1 "add" c.undoStack.pop.1.productId
      c.undoStack.pop.1.productName c.undoStack.pop.1.quantity
    have hrec2 : c2.undoStack.records = c.undoStack.pop.2.records ++
        [⟨"add", c.undoStack.pop.1.productId, c.undoStack.pop.1.productName,
          c.undoStack.pop.1.quantity⟩] := by
      rw [hst]; exact hpush.1
    refine ⟨c2, _, _, _, e2, hrec, hrec2, rfl, Or.inr ⟨hrm, rfl⟩, by rw [hst]; exact hpush.2,
      ⟨_, h2⟩, ?_⟩
    refine logSound_intro h2 ?_ ?_
    · intro r hr
      rw [hrec2] at hr
      rcases List.mem_append.1 hr with hr | hr
      · exact htypes r hr
      · simp only [List.mem_singleton] at hr
        rw [hr]; exact Or.inl rfl
    · intro r hr _
      rw [hrec2, getLast_snoc] at hr
      cases hr
      exact ⟨_, List.mem_append_right _ (List.mem_singleton.2 rfl), rfl⟩

/-- A stack is empty exactly when it holds no record. -/
theorem Stack.isEmpty_false_iff {s : Stack} (h : s.OK) :
    s.isEmpty = false ↔ s.records.length ≠ 0 := by
  have hl := Stack.records_length h
  unfold Stack.isEmpty
  simp only [beq_eq_false_iff_ne, ne_eq]
  constructor
  · intro h1 h2
    rw [h2] at hl
    exact h1 (by push_cast at hl; omega)
  · intro h1 h2
    rw [h2] at hl
    exact h1 (by omega)

/-- A call that does not push on a full log returns and keeps the stack
invariant, the list structure and the log invariant. -/
theorem step_logSound {c : ShoppingCart} (hok : c.undoStack.OK) {ps : List (Nat × CartLine)}
    (hc : c.Holds ps) (hs : c.LogSound) (op : CartOp) (hno : c.pushesOnFull op = false) :
    ∃ c2 ps2, c.step op = some c2 ∧ c2.undoStack.OK ∧ c2.Holds ps2 ∧ c2.LogSound := by
  cases op with
  | addItem id name price qty =>
    have htop : c.undoStack.top < 99 := by
      simpa [ShoppingCart.pushesOnFull] using hno
    obtain ⟨c2, e2, h2, hst⟩ := addItem_spec hc id name price qty
    have hpush := Stack.records_push hok htop "add" id name qty
    have hrec2 : c2.undoStack.records = c.undoStack.records ++ [⟨"add", id, name, qty⟩] := by
      rw [hst]; exact hpush.1
    refine ⟨c2, _, e2, by rw [hst]; exact hpush.2, h2, logSound_intro h2 ?_ ?_⟩
    · intro r hr
      rw [hrec2] at hr
      rcases List.mem_append.1 hr with hr | hr
      · exact hs.1 r hr
      · simp only [List.mem_singleton] at hr
        rw [hr]; exact Or.inl rfl
    · intro r hr _
      rw [hrec2, getLast_snoc] at hr
      cases hr
      exact ⟨_, List.mem_append_right _ (List.mem_singleton.2 rfl), rfl⟩
  | modifyItem id q =>
    cases hf : (ps.map Prod.snd).find? (CartLine.hasId id) with
    | none =>
      exact ⟨c, ps, modifyItem_absent hc (absent_of_find_none hf) q, hok, hc, hs⟩
    | some l =>
      obtain ⟨ps1, t, ps2, e, hl, hno2, _⟩ := split_first ps l hf
      subst e
      obtain ⟨c2, e2, h2, hst⟩ := modifyItem_found hc hl hno2 q
      refine ⟨c2, _, e2, by rw [hst]; exact hok, h2, logSound_intro h2 ?_ ?_⟩
      · rw [hst]; exact hs.1
      · intro r hr ha
        rw [hst] at hr
        obtain ⟨x, hx, hid⟩ := logSound_present hc hs hr ha
        rcases List.mem_append.1 hx with hx | hx
        · exact ⟨x, List.mem_append_left _ hx, hid⟩
        · rcases List.mem_cons.1 hx with rfl | hx
          · exact ⟨_, List.mem_append_right _ (List.mem_cons_self _ _), hid⟩
          · exact ⟨x, List.mem_append_right _ (List.mem_cons_of_mem _ hx), hid⟩
  | removeItem id =>
    cases hf : (ps.map Prod.snd).find? (CartLine.hasId id) with
    | none =>
      exact ⟨c, ps, (removeItem_absent hc (absent_of_find_none hf)).1, hok, hc, hs⟩
    | some l =>
      obtain ⟨ps1, t, ps2, e, hl, hno2, _⟩ := split_first ps l hf
      subst e
      have hfinds := removeItem_finds hc hl hno2
      have htop : c.undoStack.top < 99 := by
        simpa [ShoppingCart.pushesOnFull, hfinds] using hno
      obtain ⟨c2, e2, h2, hst⟩ := removeItem_found hc hl hno2
      have hpush := Stack.records_push hok htop "remove" l.productId l.productName l.quantity
      have hrec2 : c2.undoStack.records =
          c.undoStack.records ++ [⟨"remove", l.productId, l.productName, l.quantity⟩] := by
        rw [hst]; exact hpush.1
      refine ⟨c2, _, e2, by rw [hst]; exact hpush.2, h2, logSound_intro h2 ?_ ?_⟩
      · intro r hr
        rw [hrec2] at hr
        rcases List.mem_append.1 hr with hr | hr
        · exact hs.1 r hr
        · simp only [List.mem_singleton] at hr
          rw [hr]; exact Or.inr rfl
      · intro r hr har
        rw [hrec2, getLast_snoc] at hr
        cases hr
        simp at har
  | undo =>
    cases he : c.undoStack.isEmpty with
    | true =>
      refine ⟨c, ps, ?_, hok, hc, hs⟩
      simp only [ShoppingCart.step, ShoppingCart.undo, he, if_true]
    | false =>
      obtain ⟨c2, _, _, _, e2, _, _, _, _, hok2, ⟨ps2, h2⟩, hs2⟩ := undo_replaces_top hok hc hs he
      exact ⟨c2, ps2, e2, hok2, h2, hs2⟩

/-- A sequence of calls none of which pushes on a full log returns and keeps
the stack invariant, the list structure and the log invariant. -/
theorem run_logSound :
    ∀ (ops : List CartOp) (c : ShoppingCart) (ps : List (Nat × CartLine)),
      c.undoStack.OK → c.Holds ps → c.LogSound → noPushOnFull c ops = true →
        ∃ c2 ps2, runCart c ops = some c2 ∧ c2.undoStack.OK ∧ c2.Holds ps2 ∧ c2.LogSound
  | [], c, ps, hok, hc, hs, _ => ⟨c, ps, rfl, hok, hc, hs⟩
  | op :: ops, c, ps, hok, hc, hs, hno => by
    simp only [noPushOnFull, Bool.and_eq_true, Bool.not_eq_true'] at hno
    obtain ⟨c1, ps1, e1, hok1, h1, hs1⟩ := step_logSound hok hc hs op hno.1
    have hno2 := hno.2
    rw [e1] at hno2
    obtain ⟨c2, ps2, e2, hok2, h2, hs2⟩ := run_logSound ops c1 ps1 hok1 h1 hs1 hno2
    exact ⟨c2, ps2, by simp only [runCart, e1]; exact e2, hok2, h2, hs2⟩

/-- Repeated `undo` calls on a cart that satisfies the log invariant keep the
number of log records. -/
theorem undo_iter :
    ∀ (n : Nat) (c : ShoppingCart) (ps : List (Nat × CartLine)),
      c.undoStack.OK → c.Holds ps → c.LogSound → c.undoStack.isEmpty = false →
        ∃ c3, runCart c (List.replicate n CartOp.undo) = some c3 ∧
          c3.undoStack.records.length = c.undoStack.records.length ∧
          c3.undoStack.isEmpty = false
  | 0, c, _, _, _, _, hne => ⟨c, rfl, rfl, hne⟩
  | n + 1, c, ps, hok, hc, hs, hne => by
    obtain ⟨c2, init, r, r2, e2, hr, hr2, _, _, hok2, ⟨ps2, h2⟩, hs2⟩ :=
      undo_replaces_top hok hc hs hne
    have hlen : c2.undoStack.records.length = c.undoStack.records.length := by
      rw [hr, hr2]; simp
    have hne2 : c2.undoStack.isEmpty = false := by
      rw [Stack.isEmpty_false_iff hok2, hr2]; simp
    obtain ⟨c3, e3, hl3, hne3⟩ := undo_iter n c2 ps2 hok2 h2 hs2 hne2
    refine ⟨c3, ?_, by rw [hl3, hlen], hne3⟩
    simp only [List.replicate_succ, runCart, ShoppingCart.step, e2]
    exact e3

/-- The new cart satisfies the log invariant. -/
theorem logSound_new : ShoppingCart.new.LogSound := by
  have h : ShoppingCart.new.undoStack.records = [] := rfl
  refine ⟨?_, ?_⟩
  · intro r hr
    rw [h] at hr
    cases hr
  · intro r hr
    rw [h] at hr
    cases hr

/-- C16. Undo never shrinks the log: after any sequence of `addItem`,
`modifyItem`, `removeItem` and `undo` calls on a new cart, none of which
attempts a `push` on a full undo stack, the calls have all returned, and if
the log is not empty then `undo()` returns, pops the top record and pushes
one record in its place: a "remove" for the same product id when an "add" was
popped, an "add" for the same product id when a "remove" was popped.  So the
number of records stays the same, also over any number of `undo()` calls,
and the log never becomes empty again. -/
theorem undo_never_shrinks_log (ops : List CartOp)
    (h : noPushOnFull ShoppingCart.new ops = true) :
    ∃ c, runCart ShoppingCart.new ops = some c ∧
      (c.undoStack.isEmpty = false →
        (∃ c2 init r r2, c.undo = some c2 ∧ c.undoStack.records = init ++ [r] ∧
          c2.undoStack.records = init ++ [r2] ∧ r2.productId = r.productId ∧
          ((r.actionType = "add" ∧ r2.actionType = "remove") ∨
            (r.actionType = "remove" ∧ r2.actionType = "add")) ∧
          c2.undoStack.records.length = c.undoStack.records.length) ∧
        ∀ n : Nat, ∃ c3, runCart c (List.replicate n CartOp.undo) = some c3 ∧
          c3.undoStack.records.length = c.undoStack.records.length ∧
          c3.undoStack.isEmpty = false) := by
  obtain ⟨c, ps, e, hok, hc, hs⟩ :=
    run_logSound ops ShoppingCart.new [] stack_new_ok holds_new logSound_new h
  refine ⟨c, e, ?_⟩
  intro hne
  obtain ⟨c2, init, r, r2, e2, hr, hr2, hid, hty, _, _, _⟩ := undo_replaces_top hok hc hs hne
  exact ⟨⟨c2, init, r, r2, e2, hr, hr2, hid, hty, by rw [hr, hr2]; simp⟩,
    fun n => undo_iter n c ps hok hc hs hne⟩

/-- An add, a modify, a remove and an undo, then one more `undo`: two records before and after. -/
theorem undo_never_shrinks_log_witness :
    noPushOnFull ShoppingCart.new
        [.addItem 1 "Laptop" 99999 2, .modifyItem 1 3, .addItem 5 "Mouse" 2999 1, .undo] = true ∧
      ∃ c, runCart ShoppingCart.new
          [.addItem 1 "Laptop" 99999 2, .modifyItem 1 3, .addItem 5 "Mouse" 2999 1, .undo]
          = some c ∧
        (c.undoStack.isEmpty = false →
          (∃ c2 init r r2, c.undo = some c2 ∧ c.undoStack.records = init ++ [r] ∧
            c2.undoStack.records = init ++ [r2] ∧ r2.productId = r.productId ∧
            ((r.actionType = "add" ∧ r2.actionType = "remove") ∨
              (r.actionType = "remove" ∧ r2.actionType = "add")) ∧
            c2.undoStack.records.length = c.undoStack.records.length) ∧
          ∀ n : Nat, ∃ c3, runCart c (List.replicate n CartOp.undo) = some c3 ∧
            c3.undoStack.records.length = c.undoStack.records.length ∧
            c3.undoStack.isEmpty = false) :=
  ⟨by decide, undo_never_shrinks_log _ (by decide)⟩

/-! ## Undo and the catalog stock -/

/-- After the quantity of the node that `search` finds is overwritten, `search`
finds the same node with the new quantity. -/
theorem search_setQuantity (id v : Int) :
    ∀ (t : Node) (p : Product) (l r : Node) (h : Int), search t id = .node p l r h →
      search (setQuantity t id v) id = .node ⟨p.id, p.name, p.price, v⟩ l r h := by
  intro t
  induction t with
  | nil => intro p l r h e; cases e
  | node q tl tr th ihl ihr =>
    intro p l r h e
    unfold search at e
    unfold setQuantity
    by_cases c0 : q.id = id
    · rw [if_pos c0] at e
      cases e
      rw [if_pos c0]
      unfold search
      rw [if_pos c0]
    · rw [if_neg c0] at e
      rw [if_neg c0]
      by_cases c1 : id < q.id
      · rw [if_pos c1] at e
        rw [if_pos c1]
        unfold search
        rw [if_neg c0, if_pos c1]
        exact ihl p l r h e
      · rw [if_neg c1] at e
        rw [if_neg c1]
        unfold search
        rw [if_neg c0, if_neg c1]
        exact ihr p l r h e

/-- A value in the range of `int` is stored as it is. -/
theorem wrapInt_of_inIntRange {x : Int} (h : inIntRange x = true) : wrapInt x = x := by
  unfold inIntRange at h
  unfold wrapInt
  have h2 := of_decide_eq_true h
  omega

/-- One round of menu case 1 and menu case 5 when the stock test passes and the
subtraction stays in the range of `int`: both steps return, `undo` leaves the catalog as
the add step left it, and the stock is lowered by `qty`. -/
theorem add_undo_round {s : Session} (hw : s.cart.WellFormed) {id qty q0 : Int}
    (h0 : s.stock id = some q0) (hq : qty ≤ q0) (hr : inIntRange (q0 - qty) = true) :
    ∃ s1 s2, s.addStep id qty = some s1 ∧ s1.undoStep = some s2 ∧
      s1.stock id = some (q0 - qty) ∧ s2.root = s1.root ∧
      s2.stock id = some (q0 - qty) ∧ s2.cart.WellFormed := by
  unfold Session.stock at h0
  cases hsr : search s.root id with
  | nil => rw [hsr] at h0; cases h0
  | node p l r h =>
    rw [hsr] at h0
    cases h0
    obtain ⟨c1, e1, hw1⟩ := addItem_wf hw id p.name p.price qty
    obtain ⟨c2, e2, hw2⟩ := undo_wf hw1
    have hwr : wrapInt (p.quantity - qty) = p.quantity - qty := wrapInt_of_inIntRange hr
    have hst : Session.stock ⟨setQuantity s.root id (p.quantity - qty), c1⟩ id =
        some (p.quantity - qty) := by
      unfold Session.stock
      simp only [search_setQuantity id (p.quantity - qty) s.root p l r h hsr]
    have hst2 : Session.stock ⟨setQuantity s.root id (p.quantity - qty), c2⟩ id =
        some (p.quantity - qty) := by
      unfold Session.stock
      simp only [search_setQuantity id (p.quantity - qty) s.root p l r h hsr]
    refine ⟨⟨setQuantity s.root id (p.quantity - qty), c1⟩,
      ⟨setQuantity s.root id (p.quantity - qty), c2⟩, ?_, ?_, hst, rfl, hst2, hw2⟩
    · unfold Session.addStep
      rw [hsr]
      simp only [ge_iff_le, hq, if_true, e1, hwr]
    · unfold Session.undoStep
      simp only [e2]


/-- The stock after `n` rounds of menu case 1 and menu case 5, each of which
passes the stock test and stays in range. -/
theorem add_undo_rounds {id qty : Int} :
    ∀ (n : Nat) (s : Session) (q0 : Int), s.cart.WellFormed → s.stock id = some q0 →
      (∀ k : Nat, k < n → qty ≤ q0 - k * qty ∧ inIntRange (q0 - (k + 1) * qty) = true) →
        ∃ sn, s.addUndoCycles n id qty = some sn ∧ sn.stock id = some (q0 - n * qty)
  | 0, s, q0, _, h0, _ => ⟨s, rfl, by simpa using h0⟩
  | n + 1, s, q0, hw, h0, hk => by
    have hk0 := hk 0 (by omega)
    simp only [Nat.cast_zero, zero_mul, sub_zero, zero_add, one_mul] at hk0
    obtain ⟨s1, s2, e1, e2, _, _, hst2, hw2⟩ := add_undo_round hw h0 hk0.1 hk0.2
    have hk2 : ∀ k : Nat, k < n →
        qty ≤ q0 - qty - k * qty ∧ inIntRange (q0 - qty - (k + 1) * qty) = true := by
      intro k hkn
      have := hk (k + 1) (by omega)
      push_cast at this
      have e3 : q0 - qty - k * qty = q0 - (k + 1) * qty := by ring
      have e4 : q0 - qty - (k + 1) * qty = q0 - (k + 1 + 1) * qty := by ring
      rw [e3, e4]
      exact this
    obtain ⟨sn, en, hsn⟩ := add_undo_rounds n s2 (q0 - qty) hw2 hst2 hk2
    refine ⟨sn, ?_, ?_⟩
    · simp only [Session.addUndoCycles, e1, e2]
      exact en
    · rw [hsn]
      congr 1
      push_cast
      ring


/-- C17, amended. Undo does not restore catalog stock: with menu case 1 as the
add step (`search`, the test `quantity >= qty`, `addItem`, `quantity -= qty`)
and the product found with quantity `q0`: the add step succeeds exactly when
`qty ≤ q0` and otherwise changes nothing; when it succeeds and `q0 - qty` is
in the range of the 32-bit `int`, the add step followed by `undo()` returns,
`undo()` leaves the catalog as the add step left it, and the stock is
`q0 - qty`; and `n` successful rounds that stay in the range leave the stock
at `q0 - n * qty`. -/
theorem undo_does_not_restore_stock (s : Session) (hw : s.cart.WellFormed) (id qty q0 : Int)
    (h0 : s.stock id = some q0) :
    (s.addStepSucceeds id qty = true ↔ qty ≤ q0) ∧
    (s.addStepSucceeds id qty = false → s.addStep id qty = some s) ∧
    (qty ≤ q0 → inIntRange (q0 - qty) = true →
      ∃ s1 s2, s.addStep id qty = some s1 ∧ s1.undoStep = some s2 ∧
        s1.stock id = some (q0 - qty) ∧ s2.root = s1.root ∧
        s2.stock id = some (q0 - qty)) ∧
    (∀ n : Nat,
      (∀ k : Nat, k < n → qty ≤ q0 - k * qty ∧ inIntRange (q0 - (k + 1) * qty) = true) →
        ∃ sn, s.addUndoCycles n id qty = some sn ∧ sn.stock id = some (q0 - n * qty)) := by
  refine ⟨?_, ?_, ?_, ?_⟩
  · unfold Session.stock at h0
    unfold Session.addStepSucceeds
    cases hsr : search s.root id with
    | nil => rw [hsr] at h0; cases h0
    | node p l r h =>
      rw [hsr] at h0
      cases h0
      simp
  · unfold Session.stock at h0
    unfold Session.addStepSucceeds Session.addStep
    cases hsr : search s.root id with
    | nil => rw [hsr] at h0; cases h0
    | node p l r h =>
      intro hf
      simp only [ge_iff_le, decide_eq_false_iff_not] at hf
      simp only [ge_iff_le, if_neg hf]
  · intro hq hr
    obtain ⟨s1, s2, e1, e2, h1, h2, h3, _⟩ := add_undo_round hw h0 hq hr
    exact ⟨s1, s2, e1, e2, h1, h2, h3⟩
  · intro n hk
    exact add_undo_rounds n s q0 hw h0 hk


/-- The seed catalog and a new cart: three rounds of adding two laptops and
undoing leave 4 of the 10 laptops in stock. -/
theorem undo_does_not_restore_stock_witness :
    (⟨seedTree, ShoppingCart.new⟩ : Session).cart.WellFormed ∧
      (⟨seedTree, ShoppingCart.new⟩ : Session).stock 1 = some 10 ∧
      ∃ sn, (⟨seedTree, ShoppingCart.new⟩ : Session).addUndoCycles 3 1 2 = some sn ∧
        sn.stock 1 = some 4 := by
  refine ⟨new_wf, by decide, ?_⟩
  obtain ⟨sn, e, h⟩ := (undo_does_not_restore_stock ⟨seedTree, ShoppingCart.new⟩ new_wf 1 2 10
    (by decide)).2.2.2 3 (by
      intro k hk
      interval_cases k <;> decide)
  exact ⟨sn, e, by simpa using h⟩


/-- C17 as stated fails when the subtraction leaves the range of `int`: in the
seed catalog the laptop has the stock 10; the add step with the quantity
`-2147483648` passes the stock test and returns, and after it and `undo()`
the stock is `-2147483638`, not `10 - (-2147483648) = 2147483658`. -/
theorem add_step_wraps_stock :
    (⟨seedTree, ShoppingCart.new⟩ : Session).stock 1 = some 10 ∧
      (⟨seedTree, ShoppingCart.new⟩ : Session).addStepSucceeds 1 (-2147483648) = true ∧
      (((⟨seedTree, ShoppingCart.new⟩ : Session).addStep 1 (-2147483648)).bind
        Session.undoStep).bind (fun s => s.stock 1) = some (-2147483638) ∧
      (-2147483638 : Int) ≠ 10 - (-2147483648) := by
  decide

/-! ## Catalog tree: heights -/

/-- The subtrees of a tree with exact cached heights have exact cached heights. -/
theorem nodes_exact :
    ∀ (t : Node), HeightsExact t → ∀ s ∈ nodes t, HeightsExact s := by
  intro t
  induction t with
  | nil => intro _ s hs; simp [nodes] at hs
  | node q l r h ihl ihr =>
    intro he s hs
    simp only [nodes, List.mem_append, List.mem_cons] at hs
    rcases hs with hs | rfl | hs
    · exact ihl he.2.1 s hs
    · exact he
    · exact ihr he.2.2 s hs

/-- Fibonacci numbers grow at least like powers of two of half the index. -/
theorem two_pow_half_le_fib : ∀ h : Nat, 2 ^ (h / 2) ≤ Nat.fib (h + 2)
  | 0 => by decide
  | 1 => by decide
  | h + 2 => by
    have ih := two_pow_half_le_fib h
    have e : (h + 2) / 2 = h / 2 + 1 := by omega
    have m : Nat.fib (h + 2) ≤ Nat.fib (h + 3) := Nat.fib_mono (by omega)
    have f : Nat.fib (h + 2 + 2) = Nat.fib (h + 2) + Nat.fib (h + 3) := Nat.fib_add_two
    rw [e, pow_succ, f]
    omega

/-- A balanced tree of true height `h` holds at least `fib (h + 2) - 1` products. -/
theorem fib_le_size : ∀ t : Node, Balanced t → Nat.fib (trueHeight t + 2) ≤ (inorder t).length + 1 := by
  intro t
  induction t with
  | nil => intro _; decide
  | node q l r h ihl ihr =>
    rintro ⟨b1, b2, bl, br⟩
    have hl := ihl bl
    have hr := ihr br
    simp only [trueHeight, inorder, List.length_append, List.length_cons]
    rcases le_total (trueHeight r) (trueHeight l) with c | c
    · rw [max_eq_left c]
      have e : 1 + trueHeight l + 2 = trueHeight l + 3 := by omega
      have f : Nat.fib (trueHeight l + 3) = Nat.fib (trueHeight l + 1) + Nat.fib (trueHeight l + 2) :=
        Nat.fib_add_two
      rw [e, f]
      have m : Nat.fib (trueHeight l + 1) ≤ Nat.fib (trueHeight r + 2) := Nat.fib_mono (by omega)
      omega
    · rw [max_eq_right c]
      have e : 1 + trueHeight r + 2 = trueHeight r + 3 := by omega
      have f : Nat.fib (trueHeight r + 3) = Nat.fib (trueHeight r + 1) + Nat.fib (trueHeight r + 2) :=
        Nat.fib_add_two
      rw [e, f]
      have m : Nat.fib (trueHeight r + 1) ≤ Nat.fib (trueHeight l + 2) := Nat.fib_mono (by omega)
      omega

/-- The call `search` visits at most as many nodes as the tree is high. -/
theorem searchVisits_le : ∀ (t : Node) (k : Int), searchVisits t k ≤ trueHeight t := by
  intro t
  induction t with
  | nil => intro k; exact le_refl _
  | node q l r h ihl ihr =>
    intro k
    have h1 := ihl k
    have h2 := ihr k
    simp only [searchVisits, trueHeight]
    split_ifs <;> omega

/-- Logarithmic height of a balanced tree: in a tree in which the true heights of the two
subtrees of every node differ by at most one, with true height `h` and `n`
products, `fib (h + 2) - 1 ≤ n` (with `fib 1 = fib 2 = 1`), `search` visits at
most `h` nodes, and `2 ^ (h / 2) ≤ n + 1`. -/
theorem logarithmic_height (t : Node) (hb : Balanced t) (k : Int) :
    Nat.fib 1 = 1 ∧ Nat.fib 2 = 1 ∧
    Nat.fib (trueHeight t + 2) - 1 ≤ (inorder t).length ∧
    searchVisits t k ≤ trueHeight t ∧
    2 ^ (trueHeight t / 2) ≤ (inorder t).length + 1 := by
  have h1 := fib_le_size t hb
  have h2 := two_pow_half_le_fib (trueHeight t)
  exact ⟨rfl, rfl, by omega, searchVisits_le t k, le_trans h2 h1⟩

/-- The seed catalog: height 4, ten products, and `search` for id 10 visits four nodes. -/
theorem logarithmic_height_witness :
    Balanced seedTree ∧ trueHeight seedTree = 4 ∧ (inorder seedTree).length = 10 ∧
      searchVisits seedTree 10 = 4 ∧
      Nat.fib (trueHeight seedTree + 2) - 1 ≤ (inorder seedTree).length ∧
      searchVisits seedTree 10 ≤ trueHeight seedTree ∧
      2 ^ (trueHeight seedTree / 2) ≤ (inorder seedTree).length + 1 := by
  have h := logarithmic_height seedTree seedTree_balanced 10
  exact ⟨seedTree_balanced, by decide, by decide, by decide, h.2.2.1, h.2.2.2.1, h.2.2.2.2⟩

/-- C18. Logarithmic height, evaluated at a failing run: the tree built by the
inserts of the ids 1, 3, 4, 2, 5, 6 has true height 4 and holds 6 products,
fewer than `Fib(4 + 2) - 1 = 7`; `search` for id 2 visits 4 nodes of it. -/
theorem reachable_tree_below_fib_bound :
    applyOps .nil (insertsOf [1, 3, 4, 2, 5, 6]) = some unbalancedTree ∧
      trueHeight unbalancedTree = 4 ∧ (inorder unbalancedTree).length = 6 ∧
      searchVisits unbalancedTree 2 = 4 ∧
      Nat.fib (trueHeight unbalancedTree + 2) - 1 = 7 ∧
      ¬ (Nat.fib (trueHeight unbalancedTree + 2) - 1 ≤ (inorder unbalancedTree).length) := by
  decide

/-- C19. Cached heights, evaluated at two failing runs.  After the inserts of
the ids 1, 2, 3 the root stores the height 4 while the true height of the
tree is 2.  After the inserts of the ids 1, 2, 3, 5, 4 `getBalance` gives -3
at the root, whose real balance factor is -1. -/
theorem leftRotate_leaves_stale_height :
    applyOps .nil (insertsOf [1, 2, 3]) = some staleTree ∧
      height staleTree = 4 ∧ trueHeight staleTree = 2 ∧ ¬ HeightsExact staleTree ∧
      applyOps .nil (insertsOf [1, 2, 3, 5, 4]) = some skewTree ∧
      getBalance skewTree = -3 ∧ trueBalance skewTree = -1 := by
  refine ⟨by decide, by decide, by decide, ?_, by decide, by decide, by decide⟩
  simp [staleTree, leaf, HeightsExact, trueHeight]

/-! ## Order queue: the claims -/

/-- The new queue satisfies the class invariant. -/
theorem queue_new_ok : Queue.new.OK := by
  refine ⟨rfl, by simp [Queue.new], by simp [Queue.new], Or.inl ⟨rfl, rfl⟩⟩

/-- The method `enqueue` keeps the class invariant. -/
theorem Queue.enqueue_ok {q : Queue} (h : q.OK) (x : Int) : (q.enqueue x).OK := by
  obtain ⟨h1, h2, h3, h4⟩ := h
  unfold Queue.enqueue
  split_ifs with c c2
  · exact ⟨h1, h2, h3, h4⟩
  · rw [h1] at c
    refine ⟨h1, by simpa using h2, by simp only; omega, Or.inr ?_⟩
    simp only
    omega
  · rw [h1] at c
    refine ⟨h1, by simpa using h2, by simp only; omega, Or.inr ?_⟩
    simp only
    omega

/-- The method `dequeue` keeps the class invariant. -/
theorem Queue.dequeue_ok {q : Queue} (h : q.OK) : q.dequeue.OK := by
  obtain ⟨h1, h2, h3, h4⟩ := h
  unfold Queue.dequeue
  split_ifs with c
  · exact ⟨h1, h2, h3, h4⟩
  · refine ⟨h1, h2, h3, Or.inr ?_⟩
    simp only
    omega

/-- An accepted `enqueue` puts the identifier last. -/
theorem Queue.entries_enqueue {q : Queue} (h : q.OK) (x : Int) (ha : q.back < 99) :
    (q.enqueue x).entries = q.entries ++ [x] := by
  obtain ⟨h1, h2, h3, h4⟩ := h
  unfold Queue.enqueue Queue.entries
  rw [if_neg (by rw [h1]; omega)]
  simp only
  have e : (q.back + 1 + 1).toNat = (q.back + 1).toNat + 1 := by omega
  have hf : (if q.front = -1 then q.front + 1 else q.front).toNat = q.front.toNat := by
    split_ifs with c
    · rw [c]; rfl
    · rfl
  rw [e, take_succ_set _ _ _ (by omega), hf, List.drop_append_of_le_length]
  rw [List.length_take]
  omega

/-- The method `dequeue` drops the oldest entry. -/
theorem Queue.entries_dequeue {q : Queue} (h : q.OK) : q.dequeue.entries = q.entries.drop 1 := by
  obtain ⟨h1, h2, h3, h4⟩ := h
  unfold Queue.dequeue Queue.entries
  split_ifs with c
  · symm
    rw [List.drop_drop, List.drop_eq_nil_iff.2, List.drop_eq_nil_iff.2]
    · rw [List.length_take]; omega
    · rw [List.length_take]; omega
  · simp only
    rw [List.drop_drop]
    congr 1
    omega

/-- The number of entries is `back - front + 1`, and `0` on a queue never used. -/
theorem Queue.entries_length {q : Queue} (h : q.OK) :
    (q.entries.length : Int) = if q.front = -1 then 0 else q.back + 1 - q.front := by
  obtain ⟨h1, h2, h3, h4⟩ := h
  unfold Queue.entries
  rw [List.length_drop, List.length_take]
  split_ifs with c <;> omega

/-- On a queue that is not empty `peek` returns the oldest entry. -/
theorem Queue.peek_entries {q : Queue} (h : q.OK) (hne : q.isEmpty = false) :
    ∃ rest, q.entries = q.peek :: rest := by
  obtain ⟨h1, h2, h3, h4⟩ := h
  have hc : ¬ (q.front = -1 ∨ q.front > q.back) := by simpa [Queue.isEmpty] using hne
  unfold Queue.peek Queue.entries
  rw [if_neg hc]
  have hlt : q.front.toNat < (q.orderIds.take (q.back + 1).toNat).length := by
    rw [List.length_take]; omega
  refine ⟨(q.orderIds.take (q.back + 1).toNat).drop (q.front.toNat + 1), ?_⟩
  rw [List.drop_eq_getElem_cons hlt]
  congr 1
  rw [List.getElem_take, List.getD_eq_getElem?_getD, List.getElem?_eq_getElem (by omega)]
  rfl

/-- The queue is empty exactly when it holds no entry. -/
theorem Queue.isEmpty_iff {q : Queue} (h : q.OK) : q.isEmpty = true ↔ q.entries = [] := by
  have hl := Queue.entries_length h
  obtain ⟨h1, h2, h3, h4⟩ := h
  rw [← List.length_eq_zero]
  unfold Queue.isEmpty
  simp only [decide_eq_true_eq]
  split_ifs at hl with c <;> omega

/-- While the calls still to come hold no more `enqueue` than there are slots
left, the queue follows the first-in first-out list. -/
theorem runQueue_fifo :
    ∀ (ops : List QueueOp) (q : Queue), q.OK → q.back + 1 + enqueueCount ops ≤ 100 →
      (runQueue q ops).OK ∧ (runQueue q ops).entries = fifo q.entries ops
  | [], q, h, _ => ⟨h, rfl⟩
  | .enqueue x :: ops, q, h, hc => by
    simp only [enqueueCount, Nat.cast_add, Nat.cast_one] at hc
    have hb : q.back < 99 := by omega
    have hb2 : (q.enqueue x).back = q.back + 1 := by
      unfold Queue.enqueue
      rw [if_neg (by rw [h.1]; omega)]
    have ih := runQueue_fifo ops (q.enqueue x) (Queue.enqueue_ok h x) (by rw [hb2]; omega)
    rw [Queue.entries_enqueue h x hb] at ih
    exact ih
  | .dequeue :: ops, q, h, hc => by
    simp only [enqueueCount] at hc
    have hb2 : q.dequeue.back = q.back := by
      unfold Queue.dequeue
      split_ifs <;> rfl
    have ih := runQueue_fifo ops q.dequeue (Queue.dequeue_ok h) (by rw [hb2]; exact hc)
    rw [Queue.entries_dequeue h] at ih
    exact ih

/-- C15. Queue bounds and FIFO order: on a queue that holds 100 entries `enqueue`
changes nothing; on an empty queue `dequeue` changes nothing and `peek`
returns -1; and after any sequence of calls on a new queue with at most 100
`enqueue` calls, the entries are the identifiers enqueued and not yet
dequeued, oldest first, the queue is empty exactly when there is none, and
on a non-empty queue `peek` returns the oldest of them. -/
theorem queue_bounds_and_fifo :
    (∀ (q : Queue) (x : Int), q.OK → q.entries.length = 100 → q.enqueue x = q) ∧
    (∀ q : Queue, q.isEmpty = true → q.dequeue = q ∧ q.peek = -1) ∧
    (∀ ops : List QueueOp, enqueueCount ops ≤ 100 →
      (runQueue Queue.new ops).entries = fifo [] ops ∧
      ((runQueue Queue.new ops).isEmpty = true ↔ fifo [] ops = []) ∧
      ((runQueue Queue.new ops).isEmpty = false →
        ∃ rest, fifo [] ops = (runQueue Queue.new ops).peek :: rest)) := by
  refine ⟨?_, ?_, ?_⟩
  · intro q x h hl
    have hl2 := Queue.entries_length h
    obtain ⟨h1, h2, h3, h4⟩ := h
    unfold Queue.enqueue
    rw [if_pos]
    rw [h1]
    split_ifs at hl2 with c <;> omega
  · intro q he
    have hc : q.front = -1 ∨ q.front > q.back := by simpa [Queue.isEmpty] using he
    unfold Queue.dequeue Queue.peek
    rw [if_pos hc, if_pos hc]
    exact ⟨rfl, rfl⟩
  · intro ops hc
    obtain ⟨hok, he⟩ := runQueue_fifo ops Queue.new queue_new_ok (by
      have : Queue.new.back = -1 := rfl
      rw [this]; omega)
    have hn : Queue.new.entries = [] := rfl
    rw [hn] at he
    refine ⟨he, ?_, ?_⟩
    · rw [← he]; exact Queue.isEmpty_iff hok
    · intro hne
      rw [← he]
      exact Queue.peek_entries hok hne

/-- Three orders are placed and one is served: `peek` shows the second order. -/
theorem queue_bounds_and_fifo_witness :
    (runQueue Queue.new [.enqueue 7, .enqueue 8, .dequeue, .enqueue 9]).entries = [8, 9] ∧
      (runQueue Queue.new [.enqueue 7, .enqueue 8, .dequeue, .enqueue 9]).peek = 8 ∧
      Queue.new.dequeue = Queue.new ∧ Queue.new.peek = -1 := by
  have h := queue_bounds_and_fifo
  have h3 := h.2.2 [.enqueue 7, .enqueue 8, .dequeue, .enqueue 9] (by decide)
  have h2 := h.2.1 Queue.new (by decide)
  exact ⟨h3.1, by decide, h2.1, h2.2⟩

/-- The index `back` is one less than the number of accepted `enqueue` calls. -/
theorem runQueue_back :
    ∀ (ops : List QueueOp) (q : Queue), q.OK →
      (runQueue q ops).OK ∧ (runQueue q ops).back = q.back + acceptedCount q ops
  | [], q, h => ⟨h, by simp [runQueue, acceptedCount]⟩
  | .enqueue x :: ops, q, h => by
    obtain ⟨ih1, ih2⟩ := runQueue_back ops (q.enqueue x) (Queue.enqueue_ok h x)
    refine ⟨ih1, ?_⟩
    simp only [runQueue, acceptedCount, Queue.step]
    rw [ih2]
    unfold Queue.accepts Queue.enqueue
    by_cases c : q.back = q.capacity - 1
    · simp [c]
    · simp only [if_neg c, decide_eq_true_eq, not_false_eq_true, if_true]
      push_cast
      omega
  | .dequeue :: ops, q, h => by
    obtain ⟨ih1, ih2⟩ := runQueue_back ops q.dequeue (Queue.dequeue_ok h)
    refine ⟨ih1, ?_⟩
    simp only [runQueue, acceptedCount, Queue.step]
    rw [ih2]
    have hb2 : q.dequeue.back = q.back := by
      unfold Queue.dequeue
      split_ifs <;> rfl
    rw [hb2]
    simp

/-- C20. The capacity of the order queue is a lifetime limit: along any sequence
of `enqueue` and `dequeue` calls on a new queue at most 100 `enqueue` calls
are accepted, and once 100 have been accepted, after any further calls
(`dequeue` calls included) every `enqueue` is rejected and leaves the queue
as it is. -/
theorem queue_lifetime_limit (ops : List QueueOp) :
    acceptedCount Queue.new ops ≤ 100 ∧
    (acceptedCount Queue.new ops = 100 →
      ∀ (ops2 : List QueueOp) (x : Int),
        (runQueue (runQueue Queue.new ops) ops2).accepts = false ∧
        (runQueue (runQueue Queue.new ops) ops2).enqueue x =
          runQueue (runQueue Queue.new ops) ops2) := by
  obtain ⟨hok, hb⟩ := runQueue_back ops Queue.new queue_new_ok
  have hn : Queue.new.back = -1 := rfl
  rw [hn] at hb
  refine ⟨by have := hok.2.2.1; omega, ?_⟩
  intro hc ops2 x
  obtain ⟨hok2, hb2⟩ := runQueue_back ops2 _ hok
  have h99 : (runQueue (runQueue Queue.new ops) ops2).back = 99 := by
    have := hok2.2.2.1
    omega
  have hcap := hok2.1
  unfold Queue.accepts Queue.enqueue
  rw [if_pos (by rw [h99, hcap]; rfl)]
  exact ⟨by simp [h99, hcap], rfl⟩

set_option maxRecDepth 1000000 in
/-- After 100 `enqueue` calls and 100 `dequeue` calls the queue is empty and
still rejects `enqueue`. -/
theorem queue_lifetime_limit_witness :
    acceptedCount Queue.new (List.replicate 100 (QueueOp.enqueue 1)) = 100 ∧
      (runQueue (runQueue Queue.new (List.replicate 100 (QueueOp.enqueue 1)))
        (List.replicate 100 QueueOp.dequeue)).isEmpty = true ∧
      (runQueue (runQueue Queue.new (List.replicate 100 (QueueOp.enqueue 1)))
        (List.replicate 100 QueueOp.dequeue)).enqueue 2 =
        runQueue (runQueue Queue.new (List.replicate 100 (QueueOp.enqueue 1)))
          (List.replicate 100 QueueOp.dequeue) :=
  ⟨by decide, by decide,
    ((queue_lifetime_limit (List.replicate 100 (QueueOp.enqueue 1))).2 (by decide)
      (List.replicate 100 QueueOp.dequeue) 2).2⟩

end SCMS
